import Mathlib

/-!
Shallow embedding of the doubly-linked-list core of `src/main.py`
(class `DoublyLinkedList` with its `Node` cells and the snapshot-based
operation history), together with the app-level bulk load
(`LinkedListApp._load_from_list`).

Python object references are modelled as natural-number node ids into a
heap `Nat → Option Node`; a fresh id is drawn from an allocation counter
`nextId`.  Dereferencing a `None` reference (Python `AttributeError`) is
modelled as the explicit fault `Err.noneDeref`; `IndexError` is
`Err.indexOutOfRange`.  Fallible operations return `Except (Err × DLL) _`
where the error carries the state at the moment the exception is raised
(the index checks happen before any mutation, as in the source).
Loops that Python runs until a link is `None` (`to_list`, `search`) are
given the fuel `nextId`, an upper bound on the length of any acyclic
chain of distinct allocated nodes; under the structural invariant the
fuel is never exhausted.
-/

namespace ListProgram

/-- Operation kinds, from the `OperationType` enum of `src/main.py`
(only the members the `DoublyLinkedList` methods record). -/
inductive OperationType where
  | INSERT_HEAD
  | INSERT_TAIL
  | INSERT_POS
  | DELETE
  | CLEAR
deriving Repr, DecidableEq

/-- A node of the doubly linked list: `value`, `next`, `prev` from class
`Node` (the `id` field of the source is display-only and the Python
object identity is the heap address here; the wall-clock hash is not
modelled). -/
structure Node where
  value : String
  next : Option Nat
  prev : Option Nat
deriving Repr, DecidableEq

/-- One entry of `operation_history`, the dict built by
`_record_operation`: operation type, the value and index arguments, and
the full post-operation value sequence (`state`).  The wall-clock
`timestamp` field is display-only per the spec and is not modelled. -/
structure HistEntry where
  type : OperationType
  value : Option String
  index : Option Nat
  state : List String
deriving Repr, DecidableEq

/-- The state of a `DoublyLinkedList` object: the node heap plus the
`head`, `tail`, `length` and `operation_history` attributes, and the
allocation counter for fresh node ids. -/
structure DLL where
  nodes : Nat → Option Node
  head : Option Nat
  tail : Option Nat
  length : Nat
  operation_history : List HistEntry
  nextId : Nat

/-- Faults a `DoublyLinkedList` method can raise: `IndexError("Index out
of range")`, or an `AttributeError` from dereferencing `None`. -/
inductive Err where
  | indexOutOfRange
  | noneDeref
deriving Repr, DecidableEq

/-- The empty list produced by `DoublyLinkedList.__init__`. -/
def DLL.empty : DLL :=
  { nodes := fun _ => none, head := none, tail := none, length := 0,
    operation_history := [], nextId := 0 }

/-- Heap update: store node `n` at id `i`. -/
def upd (σ : Nat → Option Node) (i : Nat) (n : Node) : Nat → Option Node :=
  fun j => if j = i then some n else σ j

/-- Heap update of one field: apply `f` to the node at id `i` (a no-op
on an unallocated id, which cannot occur for a live Python reference). -/
def updF (σ : Nat → Option Node) (i : Nat) (f : Node → Node) : Nat → Option Node :=
  fun j => if j = i then (σ j).map f else σ j

/-- The heap after the interior splice of `insert_at_position`: a fresh
node `j` (value `v`, `next = c`, `prev = p`) is stored, `p.next` and
`c.prev` are redirected to `j`. -/
def spliceHeap (σ : Nat → Option Node) (j p c : Nat) (v : String) :
    Nat → Option Node :=
  updF (updF (upd σ j ⟨v, some c, some p⟩)
      p (fun n => { n with next := some j }))
    c (fun n => { n with prev := some j })

/-- `while current: result.append(current.value); current = current.next`
with explicit fuel (never exhausted on chains of distinct allocated
nodes when `fuel ≥` chain length). -/
def walkVals (σ : Nat → Option Node) : Nat → Option Nat → List String
  | 0, _ => []
  | _, none => []
  | fuel + 1, some i =>
    match σ i with
    | none => []
    | some n => n.value :: walkVals σ fuel n.next

/-- `DoublyLinkedList.to_list`. -/
def DLL.to_list (s : DLL) : List String :=
  walkVals s.nodes s.nextId s.head

/-- `DoublyLinkedList._record_operation`: append one history entry whose
`state` is the current full value sequence. -/
def DLL.record_operation (s : DLL) (t : OperationType) (v : Option String)
    (i : Option Nat) : DLL :=
  { s with operation_history :=
      s.operation_history ++ [⟨t, v, i, s.to_list⟩] }

/-- `DoublyLinkedList.insert_at_head`. -/
def DLL.insert_at_head (s : DLL) (value : String) : DLL :=
  let newId := s.nextId
  let s' : DLL :=
    match s.head with
    | none =>
      { s with nodes := upd s.nodes newId ⟨value, none, none⟩,
               head := some newId, tail := some newId,
               length := s.length + 1, nextId := newId + 1 }
    | some h =>
      let σ1 := upd s.nodes newId ⟨value, some h, none⟩
      let σ2 := updF σ1 h (fun n => { n with prev := some newId })
      { s with nodes := σ2, head := some newId,
               length := s.length + 1, nextId := newId + 1 }
  s'.record_operation .INSERT_HEAD (some value) (some 0)

/-- `DoublyLinkedList.insert_at_tail` (records index `self.length - 1`
after the increment, i.e. the index of the new node). -/
def DLL.insert_at_tail (s : DLL) (value : String) : DLL :=
  let newId := s.nextId
  let s' : DLL :=
    match s.head, s.tail with
    | none, _ =>
      { s with nodes := upd s.nodes newId ⟨value, none, none⟩,
               head := some newId, tail := some newId,
               length := s.length + 1, nextId := newId + 1 }
    | some _, some t =>
      let σ1 := upd s.nodes newId ⟨value, none, some t⟩
      let σ2 := updF σ1 t (fun n => { n with next := some newId })
      { s with nodes := σ2, tail := some newId,
               length := s.length + 1, nextId := newId + 1 }
    | some _, none =>
      -- `self.tail.next = new_node` on `tail = None`: AttributeError in
      -- Python; unreachable under the structural invariant.  The heap
      -- allocation of the fresh node is kept, the links are dropped.
      { s with nodes := upd s.nodes newId ⟨value, none, none⟩,
               tail := some newId,
               length := s.length + 1, nextId := newId + 1 }
  s'.record_operation .INSERT_TAIL (some value) (some s'.length.pred)

/-- `for _ in range(k): current = current.next`, faulting where Python
would raise `AttributeError` on `None.next`. -/
def walkNextE (σ : Nat → Option Node) : Nat → Option Nat → Except Err (Option Nat)
  | 0, c => .ok c
  | _ + 1, none => .error .noneDeref
  | k + 1, some i =>
    match σ i with
    | none => .error .noneDeref
    | some n => walkNextE σ k n.next

/-- `for _ in range(k): current = current.prev`, faulting where Python
would raise `AttributeError` on `None.prev`. -/
def walkPrevE (σ : Nat → Option Node) : Nat → Option Nat → Except Err (Option Nat)
  | 0, c => .ok c
  | _ + 1, none => .error .noneDeref
  | k + 1, some i =>
    match σ i with
    | none => .error .noneDeref
    | some n => walkPrevE σ k n.prev

/-- `DoublyLinkedList._get_node`: bounds check, then the
traversal-direction optimization — forward from `head` when
`index <= self.length // 2`, else backward from `tail`. -/
def DLL.get_node (s : DLL) (index : Int) : Except Err (Option Nat) :=
  if index < 0 ∨ (s.length : Int) ≤ index then .error .indexOutOfRange
  else if index ≤ ((s.length / 2 : Nat) : Int) then
    walkNextE s.nodes index.toNat s.head
  else
    walkPrevE s.nodes (s.length - 1 - index.toNat) s.tail

/-- `DoublyLinkedList.insert_at_position`.  The index check precedes any
mutation; `index == 0` delegates to `insert_at_head`, `index == length`
to `insert_at_tail`; interior indices locate the node via `_get_node`
and splice a fresh node before it. -/
def DLL.insert_at_position (s : DLL) (index : Int) (value : String) :
    Except (Err × DLL) DLL :=
  if index < 0 ∨ (s.length : Int) < index then .error (.indexOutOfRange, s)
  else if index = 0 then .ok (s.insert_at_head value)
  else if index = (s.length : Int) then .ok (s.insert_at_tail value)
  else
    match s.get_node index with
    | .error e => .error (e, s)
    | .ok none => .error (.noneDeref, s)   -- `current.prev` on `None`
    | .ok (some c) =>
      match s.nodes c with
      | none => .error (.noneDeref, s)
      | some cn =>
        let newId := s.nextId
        -- new_node.prev = current.prev; new_node.next = current
        let σ1 := upd s.nodes newId ⟨value, some c, cn.prev⟩
        -- if current.prev: current.prev.next = new_node
        let σ2 :=
          match cn.prev with
          | some p => updF σ1 p (fun n => { n with next := some newId })
          | none => σ1
        -- current.prev = new_node
        let σ3 := updF σ2 c (fun n => { n with prev := some newId })
        let s' : DLL :=
          { s with nodes := σ3, length := s.length + 1, nextId := newId + 1 }
        .ok (s'.record_operation .INSERT_POS (some value) (some index.toNat))

/-- `DoublyLinkedList.delete_at_position`.  Index check first; then the
four cases of the source: sole node, head, tail, interior.  Errors carry
the state at the moment the exception is raised (in the interior case a
`None`-`next` fault happens after the `current.prev.next` write, as in
Python). -/
def DLL.delete_at_position (s : DLL) (index : Int) :
    Except (Err × DLL) (String × DLL) :=
  if index < 0 ∨ (s.length : Int) ≤ index then .error (.indexOutOfRange, s)
  else
    let fin : String → DLL → Except (Err × DLL) (String × DLL) := fun v s' =>
      let s'' : DLL := { s' with length := s'.length - 1 }
      .ok (v, s''.record_operation .DELETE (some v) (some index.toNat))
    if s.length = 1 then
      match s.head with
      | none => .error (.noneDeref, s)    -- `self.head.value` on `None`
      | some h =>
        match s.nodes h with
        | none => .error (.noneDeref, s)
        | some hn => fin hn.value { s with head := none, tail := none }
    else if index = 0 then
      match s.head with
      | none => .error (.noneDeref, s)
      | some h =>
        match s.nodes h with
        | none => .error (.noneDeref, s)
        | some hn =>
          -- self.head = self.head.next; if self.head: self.head.prev = None
          let s1 : DLL := { s with head := hn.next }
          match hn.next with
          | none => fin hn.value s1
          | some h2 =>
            fin hn.value
              { s1 with nodes := updF s1.nodes h2 (fun n => { n with prev := none }) }
    else if index = (s.length : Int) - 1 then
      match s.tail with
      | none => .error (.noneDeref, s)
      | some t =>
        match s.nodes t with
        | none => .error (.noneDeref, s)
        | some tn =>
          -- self.tail = self.tail.prev; if self.tail: self.tail.next = None
          let s1 : DLL := { s with tail := tn.prev }
          match tn.prev with
          | none => fin tn.value s1
          | some t2 =>
            fin tn.value
              { s1 with nodes := updF s1.nodes t2 (fun n => { n with next := none }) }
    else
      match s.get_node index with
      | .error e => .error (e, s)
      | .ok none => .error (.noneDeref, s)   -- `current.value` on `None`
      | .ok (some c) =>
        match s.nodes c with
        | none => .error (.noneDeref, s)
        | some cn =>
          match cn.prev with
          | none => .error (.noneDeref, s)   -- `current.prev.next = ...`
          | some p =>
            let s1 : DLL :=
              { s with nodes := updF s.nodes p (fun n => { n with next := cn.next }) }
            match cn.next with
            | none => .error (.noneDeref, s1)  -- `current.next.prev = ...`
            | some nx =>
              fin cn.value
                { s1 with nodes := updF s1.nodes nx (fun n => { n with prev := cn.prev }) }

/-- `DoublyLinkedList.clear`. -/
def DLL.clear (s : DLL) : DLL :=
  ({ s with head := none, tail := none, length := 0 } : DLL).record_operation
    .CLEAR none none

/-- The scanning loop of `DoublyLinkedList.search`, with fuel. -/
def searchLoop (σ : Nat → Option Node) (value : String) :
    Nat → Option Nat → Nat → Int
  | 0, _, _ => -1
  | _, none, _ => -1
  | fuel + 1, some i, index =>
    match σ i with
    | none => -1
    | some n =>
      if n.value = value then (index : Int)
      else searchLoop σ value fuel n.next (index + 1)

/-- `DoublyLinkedList.search`: first matching index, or `-1`.  Read-only:
it takes the state and returns only the index. -/
def DLL.search (s : DLL) (value : String) : Int :=
  searchLoop s.nodes value s.nextId s.head 0

/-- `DoublyLinkedList._load_from_list`: reset `head`/`tail`/`length` and
re-insert every value at the tail (each such insert records a history
entry, exactly as in the source). -/
def DLL.load_from_list (s : DLL) (values : List String) : DLL :=
  values.foldl DLL.insert_at_tail
    { s with head := none, tail := none, length := 0 }

/-- `DoublyLinkedList.undo_last_operation`: no-op returning `False` when
the history holds at most one entry; otherwise pop the most recent entry
and replay the state stored in the new most recent one. -/
def DLL.undo_last_operation (s : DLL) : Bool × DLL :=
  if s.operation_history.length ≤ 1 then (false, s)
  else
    let s1 : DLL := { s with operation_history := s.operation_history.dropLast }
    match s1.operation_history.getLast? with
    | some e => (true, s1.load_from_list e.state)
    | none => (false, s1)

/-- The list-replacing core of `LinkedListApp._load_from_list` (and of
`_import_from_json`): `self.linked_list.clear()` followed by
`insert_at_tail` for each value. -/
def appLoadFromList (s : DLL) (values : List String) : DLL :=
  values.foldl DLL.insert_at_tail s.clear

/-- Pure forward traversal: follow `next` for `k` steps from a starting
reference, `none`-propagating.  This is the reference full forward
traversal used to specify `_get_node`. -/
def walkNextO (σ : Nat → Option Node) : Nat → Option Nat → Option Nat
  | 0, c => c
  | _ + 1, none => none
  | k + 1, some i =>
    match σ i with
    | none => none
    | some n => walkNextO σ k n.next

/-- Reference node lookup: walk forward from `head` exactly `index`
steps. -/
def DLL.reference_node (s : DLL) (index : Nat) : Option Nat :=
  walkNextO s.nodes index s.head

/-- The value stored at heap id `i` (`""` on an unallocated id, which
never occurs along a well-formed chain). -/
def valAt (σ : Nat → Option Node) (i : Nat) : String :=
  match σ i with
  | some n => n.value
  | none => ""

/-- `chainOk σ p ids` : the ids `ids` form a well-linked doubly-linked
chain in heap `σ` whose first node's `prev` is `p`: every id is
allocated, each node's `next` points to the following id (or `none` at
the end) and each node's `prev` points to the preceding id (or `p` at
the front). -/
def chainOk (σ : Nat → Option Node) : Option Nat → List Nat → Bool
  | _, [] => true
  | p, i :: rest =>
    match σ i with
    | none => false
    | some n => n.prev == p && n.next == rest.head? && chainOk σ (some i) rest

/-- `ids` is the exact chain of node ids of state `s`, head to tail:
the links are well formed, `head`/`tail`/`length` agree with it, the
ids are distinct and all below the allocation counter. -/
def ReprIds (s : DLL) (ids : List Nat) : Prop :=
  chainOk s.nodes none ids = true ∧
  s.head = ids.head? ∧
  s.tail = ids.getLast? ∧
  s.length = ids.length ∧
  ids.Nodup ∧
  ∀ i ∈ ids, i < s.nextId

instance (s : DLL) (ids : List Nat) : Decidable (ReprIds s ids) := by
  unfold ReprIds
  infer_instance

/-- The structural invariant of `DoublyLinkedList`: some id list
represents the state. -/
def Inv (s : DLL) : Prop := ∃ ids, ReprIds s ids

/-- Collect the ids reachable from a starting reference by following
`next`, with fuel. -/
def reachIdsAux (σ : Nat → Option Node) : Nat → Option Nat → List Nat
  | 0, _ => []
  | _, none => []
  | fuel + 1, some i =>
    match σ i with
    | none => []
    | some n => i :: reachIdsAux σ fuel n.next

/-- The ids of the nodes reachable from `head` via `next`. -/
def DLL.reachIds (s : DLL) : List Nat :=
  reachIdsAux s.nodes s.nextId s.head

/-- Check that along a list of ids every adjacent pair of nodes has
mutually inverse `next`/`prev` links. -/
def adjOk (σ : Nat → Option Node) : List Nat → Bool
  | [] => true
  | [_] => true
  | i :: j :: rest =>
    (match σ i, σ j with
     | some n, some m => n.next == some j && m.prev == some i
     | _, _ => false) &&
    adjOk σ (j :: rest)

/-- The observable structural properties of claim C5, as one executable
check: `length` equals the number of nodes reachable from `head` via
`next`; `length == 0` iff `head` is `none` iff `tail` is `none`; the
node reached after `length - 1` forward steps from `head` is `tail`;
and every adjacent pair of reachable nodes has mutually inverse
`next`/`prev` links. -/
def DLL.structOk (s : DLL) : Bool :=
  (s.length == s.reachIds.length) &&
  ((s.length == 0) == s.head.isNone) &&
  (s.head.isNone == s.tail.isNone) &&
  (s.length == 0 || walkNextO s.nodes (s.length - 1) s.head == s.tail) &&
  adjOk s.nodes s.reachIds

/-- The public operation alphabet of the claims: the seven operations a
caller can invoke on the list. -/
inductive Op where
  | insHead (v : String)
  | insTail (v : String)
  | insPos (i : Int) (v : String)
  | delPos (i : Int)
  | clearOp
  | searchOp (v : String)
  | undoOp
deriving Repr, DecidableEq

/-- One public call: fallible calls that raise leave the caller with
the state at raise time (`search` is read-only and returns only an
index, so the state is unchanged). -/
def step (s : DLL) : Op → DLL
  | .insHead v => s.insert_at_head v
  | .insTail v => s.insert_at_tail v
  | .insPos i v =>
    match s.insert_at_position i v with
    | .ok s' => s'
    | .error (_, s') => s'
  | .delPos i =>
    match s.delete_at_position i with
    | .ok (_, s') => s'
    | .error (_, s') => s'
  | .clearOp => s.clear
  | .searchOp _ => s
  | .undoOp => (s.undo_last_operation).2

/-- Run a sequence of public calls from a starting state. -/
def runOps (ops : List Op) (s : DLL) : DLL :=
  ops.foldl step s

/-- A one-element list, `["A"]`, built by one tail insert (its history
holds one entry). -/
def sample1 : DLL := DLL.empty.insert_at_tail "A"

/-- A four-element list, `["A","B","C","D"]`, built by tail inserts. -/
def sample4 : DLL :=
  (((DLL.empty.insert_at_tail "A").insert_at_tail "B").insert_at_tail
    "C").insert_at_tail "D"

theorem Inv_empty : Inv DLL.empty :=
  ⟨[], by simp [ReprIds, DLL.empty, chainOk]⟩

theorem chainOk_cons {σ : Nat → Option Node} {p : Option Nat} {i : Nat}
    {rest : List Nat} :
    chainOk σ p (i :: rest) = true ↔
      ∃ n, σ i = some n ∧ n.prev = p ∧ n.next = rest.head? ∧
        chainOk σ (some i) rest = true := by
  constructor
  · intro h
    rw [chainOk] at h
    cases hσ : σ i with
    | none => rw [hσ] at h; exact absurd h (by simp)
    | some n =>
      rw [hσ] at h
      simp only [Bool.and_eq_true, beq_iff_eq] at h
      exact ⟨n, rfl, h.1.1, h.1.2, h.2⟩
  · rintro ⟨n, hσ, hp, hn, hc⟩
    rw [chainOk, hσ]
    simp [hp, hn, hc]

/-- Framing: a chain is insensitive to heap changes outside its ids. -/
theorem chainOk_frame {σ σ' : Nat → Option Node} :
    ∀ {ids : List Nat} {p : Option Nat}, (∀ j ∈ ids, σ' j = σ j) →
      chainOk σ p ids = true → chainOk σ' p ids = true := by
  intro ids
  induction ids with
  | nil => intro p _ _; rfl
  | cons i rest ih =>
    intro p hagree hc
    obtain ⟨n, hσ, hp, hn, hc'⟩ := chainOk_cons.mp hc
    refine chainOk_cons.mpr ⟨n, ?_, hp, hn, ?_⟩
    · rw [hagree i (by simp), hσ]
    · exact ih (fun j hj => hagree j (by simp [hj])) hc'

/-- Pointwise reading of a chain: the node at position `k` is allocated,
its `next` is the id at `k+1` and its `prev` is the id at `k-1` (or the
incoming `p` at the front). -/
theorem chainOk_get {σ : Nat → Option Node} :
    ∀ {ids : List Nat} {p : Option Nat}, chainOk σ p ids = true →
      ∀ k (h : k < ids.length), ∃ n, σ (ids.get ⟨k, h⟩) = some n ∧
        n.next = ids[k + 1]? ∧
        n.prev = (match k with | 0 => p | k' + 1 => ids[k']?) := by
  intro ids
  induction ids with
  | nil => intro p _ k h; exact absurd h (by simp)
  | cons i rest ih =>
    intro p hc k h
    obtain ⟨n, hσ, hp, hn, hc'⟩ := chainOk_cons.mp hc
    match k with
    | 0 =>
      refine ⟨n, hσ, ?_, hp⟩
      rw [hn]
      cases rest <;> simp
    | k' + 1 =>
      have h' : k' < rest.length := by simpa using h
      obtain ⟨m, hσm, hmn, hmp⟩ := ih hc' k' h'
      refine ⟨m, hσm, by simpa using hmn, ?_⟩
      match k' with
      | 0 => simp [hmp]
      | k'' + 1 => simpa using hmp

/-- A duplicate-free list of naturals below `n` has at most `n`
elements (the fuel bound for heap walks). -/
theorem nodup_length_le {ids : List Nat} {n : Nat} (hd : ids.Nodup)
    (hb : ∀ i ∈ ids, i < n) : ids.length ≤ n := by
  classical
  have hsub : ids.toFinset ⊆ Finset.range n := by
    intro i hi
    simp only [List.mem_toFinset] at hi
    simpa using hb i hi
  have := Finset.card_le_card hsub
  rwa [List.toFinset_card_of_nodup hd, Finset.card_range] at this

/-- With enough fuel, the value walk along a well-formed chain returns
exactly the chain's values. -/
theorem walkVals_chain {σ : Nat → Option Node} :
    ∀ {ids : List Nat} {p : Option Nat} {fuel : Nat},
      chainOk σ p ids = true → ids.length ≤ fuel →
      walkVals σ fuel ids.head? = ids.map (valAt σ) := by
  intro ids
  induction ids with
  | nil => intro p fuel _ _; cases fuel <;> simp [walkVals]
  | cons i rest ih =>
    intro p fuel hc hfuel
    obtain ⟨n, hσ, _, hn, hc'⟩ := chainOk_cons.mp hc
    match fuel with
    | 0 => exact absurd hfuel (by simp)
    | f + 1 =>
      have ihr := ih hc' (show rest.length ≤ f by simpa using hfuel)
      rw [← hn] at ihr
      simp [walkVals, hσ, ihr, valAt]

/-- With enough fuel, the id-collecting walk along a well-formed chain
returns exactly the chain's ids. -/
theorem reachIdsAux_chain {σ : Nat → Option Node} :
    ∀ {ids : List Nat} {p : Option Nat} {fuel : Nat},
      chainOk σ p ids = true → ids.length ≤ fuel →
      reachIdsAux σ fuel ids.head? = ids := by
  intro ids
  induction ids with
  | nil => intro p fuel _ _; cases fuel <;> simp [reachIdsAux]
  | cons i rest ih =>
    intro p fuel hc hfuel
    obtain ⟨n, hσ, _, hn, hc'⟩ := chainOk_cons.mp hc
    match fuel with
    | 0 => exact absurd hfuel (by simp)
    | f + 1 =>
      have ihr := ih hc' (show rest.length ≤ f by simpa using hfuel)
      rw [← hn] at ihr
      simp [reachIdsAux, hσ, ihr]

/-- Under the representation invariant, `to_list` returns the chain's
values. -/
theorem to_list_eq {s : DLL} {ids : List Nat} (h : ReprIds s ids) :
    s.to_list = ids.map (valAt s.nodes) := by
  obtain ⟨hc, hh, -, hl, hd, hb⟩ := h
  have hfuel : ids.length ≤ s.nextId := nodup_length_le hd hb
  rw [DLL.to_list, hh, walkVals_chain hc hfuel]

/-- Under the representation invariant, `length` is the length of
`to_list`. -/
theorem length_to_list {s : DLL} (h : Inv s) : s.length = s.to_list.length := by
  obtain ⟨ids, hids⟩ := h
  rw [to_list_eq hids, List.length_map]
  exact hids.2.2.2.1

/-- The pure forward walk lands on the chain id at the step count. -/
theorem walkNextO_chain {σ : Nat → Option Node} :
    ∀ {ids : List Nat} {p : Option Nat}, chainOk σ p ids = true →
      ∀ k (h : k < ids.length), walkNextO σ k ids.head? = some (ids.get ⟨k, h⟩) := by
  intro ids
  induction ids with
  | nil => intro p _ k h; exact absurd h (by simp)
  | cons i rest ih =>
    intro p hc k h
    obtain ⟨n, hσ, _, hn, hc'⟩ := chainOk_cons.mp hc
    match k with
    | 0 => rfl
    | k' + 1 =>
      have ihr := ih hc' k' (by simpa using h)
      rw [← hn] at ihr
      simp [walkNextO, hσ, ihr]

/-- The faulting forward walk lands on the chain id at the step
count, without faulting. -/
theorem walkNextE_chain {σ : Nat → Option Node} :
    ∀ {ids : List Nat} {p : Option Nat}, chainOk σ p ids = true →
      ∀ k (h : k < ids.length),
        walkNextE σ k ids.head? = .ok (some (ids.get ⟨k, h⟩)) := by
  intro ids
  induction ids with
  | nil => intro p _ k h; exact absurd h (by simp)
  | cons i rest ih =>
    intro p hc k h
    obtain ⟨n, hσ, _, hn, hc'⟩ := chainOk_cons.mp hc
    match k with
    | 0 => rfl
    | k' + 1 =>
      have ihr := ih hc' k' (by simpa using h)
      rw [← hn] at ihr
      simp [walkNextE, hσ, ihr]

/-- The faulting backward walk from position `m` descends `k` positions
along a well-formed chain, without faulting. -/
theorem walkPrevE_chain {σ : Nat → Option Node} {ids : List Nat}
    {p : Option Nat} (hc : chainOk σ p ids = true) :
    ∀ k m (hm : m < ids.length), k ≤ m →
      walkPrevE σ k (some (ids.get ⟨m, hm⟩)) =
        .ok (some (ids.get ⟨m - k, by omega⟩)) := by
  intro k
  induction k with
  | zero => intro m hm _; rfl
  | succ k' ih =>
    intro m hm hkm
    obtain ⟨n, hσ, hnn, hnp⟩ := chainOk_get hc m hm
    match m, hm with
    | m' + 1, hm =>
      simp only at hnp
      have hm' : m' < ids.length := by omega
      rw [List.getElem?_eq_getElem hm'] at hnp
      have ihr := ih m' hm' (by omega)
      simp only [walkPrevE, hσ, hnp]
      have hidx : m' + 1 - (k' + 1) = m' - k' := by omega
      simp only [List.get_eq_getElem, hidx] at ihr ⊢
      rw [ihr]

/-- The reference full forward traversal lands on the chain id at the
given index. -/
theorem reference_node_spec {s : DLL} {ids : List Nat} (h : ReprIds s ids)
    (k : Nat) (hk : k < s.length) :
    s.reference_node k = ids[k]? := by
  obtain ⟨hc, hh, -, hl, -, -⟩ := h
  have hkn : k < ids.length := by omega
  rw [DLL.reference_node, List.getElem?_eq_getElem hkn]
  conv_lhs => rw [hh]
  exact walkNextO_chain hc k hkn

/-- `_get_node` on a valid index returns the chain id at that index —
whichever traversal direction the `length // 2` comparison picks. -/
theorem get_node_spec {s : DLL} {ids : List Nat} (h : ReprIds s ids)
    {index : Int} (h0 : 0 ≤ index) (hk : index < (s.length : Int)) :
    s.get_node index = .ok ids[index.toNat]? := by
  obtain ⟨hc, hh, ht, hl, hd, hb⟩ := h
  have hkn : index.toNat < ids.length := by omega
  rw [DLL.get_node, if_neg (by omega), List.getElem?_eq_getElem hkn]
  by_cases hhalf : index ≤ ((s.length / 2 : Nat) : Int)
  · rw [if_pos hhalf]
    conv_lhs => rw [hh]
    exact walkNextE_chain hc index.toNat hkn
  · rw [if_neg hhalf]
    conv_lhs => rw [ht]
    have hne : ids ≠ [] := by
      intro hnil
      rw [hnil] at hkn
      exact absurd hkn (by simp)
    have hlast : ids.length - 1 < ids.length := by
      cases ids with
      | nil => exact absurd rfl hne
      | cons a l => simp
    rw [List.getLast?_eq_getElem? ids, List.getElem?_eq_getElem hlast]
    have hstep : s.length - 1 - index.toNat ≤ ids.length - 1 := by omega
    have := walkPrevE_chain hc (s.length - 1 - index.toNat) (ids.length - 1)
      hlast hstep
    rw [List.get_eq_getElem] at this
    rw [this]
    have hidx : ids.length - 1 - (s.length - 1 - index.toNat) = index.toNat := by
      omega
    simp only [List.get_eq_getElem, hidx]

/-- Prepending a fresh node before a nonempty chain: allocate `j`
pointing at the old head `i` and redirect `i`'s `prev` to `j`. -/
theorem chainOk_cons_new {σ : Nat → Option Node} {i : Nat} {rest : List Nat}
    {j : Nat} {v : String}
    (hc : chainOk σ none (i :: rest) = true)
    (hj : j ∉ i :: rest) (hd : (i :: rest).Nodup) :
    chainOk (updF (upd σ j ⟨v, some i, none⟩) i
      (fun n => { n with prev := some j })) none (j :: i :: rest) = true := by
  obtain ⟨n, hσ, hp, hn, hc'⟩ := chainOk_cons.mp hc
  have hji : j ≠ i := by intro hrfl; exact hj (hrfl ▸ List.mem_cons_self j rest)
  refine chainOk_cons.mpr ⟨⟨v, some i, none⟩, ?_, rfl, by simp, ?_⟩
  · simp [updF, upd, hji]
  · refine chainOk_cons.mpr ⟨{ n with prev := some j }, ?_, rfl, by simpa using hn, ?_⟩
    · simp [updF, upd, hσ, Ne.symm hji]
    · refine chainOk_frame (fun x hx => ?_) hc'
      have hxj : x ≠ j := by rintro rfl; exact hj (List.mem_cons_of_mem i hx)
      have hxi : x ≠ i := by
        rintro rfl
        exact (List.nodup_cons.mp hd).1 hx
      simp [updF, upd, hxj, hxi]

/-- Appending a fresh node after a nonempty chain: allocate `j` with
`prev` pointing at the old last id `l` and redirect `l`'s `next` to
`j`. -/
theorem chainOk_snoc {σ : Nat → Option Node} {j : Nat} {v : String} :
    ∀ {ids : List Nat} {p : Option Nat} {l : Nat}, ids.getLast? = some l →
      chainOk σ p ids = true → ids.Nodup → j ∉ ids →
      chainOk (updF (upd σ j ⟨v, none, some l⟩) l
        (fun n => { n with next := some j })) p (ids ++ [j]) = true := by
  intro ids
  induction ids with
  | nil => intro p l hlast; exact absurd hlast (by simp)
  | cons i rest ih =>
    intro p l hlast hc hd hj
    obtain ⟨n, hσ, hp, hn, hc'⟩ := chainOk_cons.mp hc
    have hji : j ≠ i := by intro hrfl; exact hj (hrfl ▸ List.mem_cons_self j rest)
    cases rest with
    | nil =>
      have hl : l = i := by simpa using hlast.symm
      subst hl
      refine chainOk_cons.mpr ⟨{ n with next := some j }, ?_, by simpa using hp, by simp, ?_⟩
      · simp [updF, upd, hσ, Ne.symm hji]
      · refine chainOk_cons.mpr ⟨⟨v, none, some l⟩, ?_, rfl, by simp, by simp [chainOk]⟩
        simp [updF, upd, hji]
    | cons r rs =>
      have hlast' : (r :: rs).getLast? = some l := by
        rw [← List.getLast?_cons_cons (a := i)]; exact hlast
      have hlmem : l ∈ r :: rs := by
        obtain ⟨hne, heq⟩ := List.mem_getLast?_eq_getLast (x := l)
          (by rw [hlast']; exact rfl)
        exact heq ▸ List.getLast_mem hne
      have hil : i ≠ l := by
        rintro rfl
        exact (List.nodup_cons.mp hd).1 hlmem
      refine chainOk_cons.mpr ⟨n, ?_, hp, ?_, ?_⟩
      · simp [updF, upd, hil, hji.symm, hσ]
      · rw [hn]; simp
      · exact ih hlast' hc' (List.nodup_cons.mp hd).2
          (fun hmem => hj (List.mem_cons_of_mem i hmem))

/-- Along a chain `as ++ b :: bs` with `l` the last id of `as`, the
node at `b` exists, its `prev` is `l` and its `next` is the head of
`bs`. -/
theorem chainOk_before_mid {σ : Nat → Option Node} {b : Nat} {bs : List Nat} :
    ∀ {as : List Nat} {p : Option Nat} {l : Nat}, as.getLast? = some l →
      chainOk σ p (as ++ b :: bs) = true →
      ∃ n, σ b = some n ∧ n.prev = some l ∧ n.next = bs.head? := by
  intro as
  induction as with
  | nil => intro p l hlast; exact absurd hlast (by simp)
  | cons x rest ih =>
    intro p l hlast hc
    obtain ⟨n, hσ, hp, hn, hc'⟩ := chainOk_cons.mp hc
    cases rest with
    | nil =>
      have hl : l = x := by simpa using hlast.symm
      subst hl
      obtain ⟨m, hσb, hbp, hbn, -⟩ := chainOk_cons.mp (by simpa using hc')
      exact ⟨m, hσb, hbp, hbn⟩
    | cons r rs =>
      have hlast' : (r :: rs).getLast? = some l := by
        rw [← List.getLast?_cons_cons (a := x)]; exact hlast
      exact ih hlast' hc'

/-- Splicing a fresh node `j` into the middle of a chain, immediately
before `b`: `j`'s links point at `l` (the last id before `b`) and `b`;
`l`'s `next` and `b`'s `prev` are redirected to `j`. -/
theorem chainOk_insert_mid {σ σ' : Nat → Option Node} {b j : Nat}
    {bs : List Nat} {nj : Node} :
    ∀ {as : List Nat} {p : Option Nat} {l : Nat}, as.getLast? = some l →
      chainOk σ p (as ++ b :: bs) = true → (as ++ b :: bs).Nodup →
      j ∉ as ++ b :: bs →
      σ' j = some nj → nj.prev = some l → nj.next = some b →
      σ' l = (σ l).map (fun n => { n with next := some j }) →
      σ' b = (σ b).map (fun n => { n with prev := some j }) →
      (∀ x, x ≠ l → x ≠ b → x ≠ j → σ' x = σ x) →
      chainOk σ' p (as ++ j :: b :: bs) = true := by
  intro as
  induction as with
  | nil => intro p l hlast; exact absurd hlast (by simp)
  | cons x rest ih =>
    intro p l hlast hc hd hj hσj hjp hjn hσl hσb hfr
    obtain ⟨n, hσ, hp, hn, hc'⟩ := chainOk_cons.mp hc
    cases rest with
    | nil =>
      have hl : l = x := by simpa using hlast.symm
      subst hl
      obtain ⟨m, hσm, hmp, hmn, hc''⟩ := chainOk_cons.mp (by simpa using hc')
      have hnb : n.next = some b := by simpa using hn
      refine chainOk_cons.mpr ⟨{ n with next := some j }, ?_, by simpa using hp, by simp, ?_⟩
      · rw [hσl, hσ]; rfl
      · refine chainOk_cons.mpr ⟨nj, hσj, hjp, by simpa using hjn, ?_⟩
        refine chainOk_cons.mpr ⟨{ m with prev := some j }, ?_, rfl, by simpa using hmn, ?_⟩
        · rw [hσb, hσm]; rfl
        · refine chainOk_frame (fun z hz => ?_) hc''
          have hd' : (l :: b :: bs).Nodup := by simpa using hd
          have hzb : z ≠ b := by
            rintro rfl
            exact (List.nodup_cons.mp (List.nodup_cons.mp hd').2).1 hz
          have hzl : z ≠ l := by
            rintro rfl
            exact (List.nodup_cons.mp hd').1 (List.mem_cons_of_mem b hz)
          have hzj : z ≠ j := by
            rintro rfl
            exact hj (by simp [hz])
          exact hfr z hzl hzb hzj
    | cons r rs =>
      have hlast' : (r :: rs).getLast? = some l := by
        rw [← List.getLast?_cons_cons (a := x)]; exact hlast
      have hlmem : l ∈ r :: rs := by
        obtain ⟨hne, heq⟩ := List.mem_getLast?_eq_getLast (x := l)
          (by rw [hlast']; exact rfl)
        exact heq ▸ List.getLast_mem hne
      have hxl : x ≠ l := by
        rintro rfl
        exact (List.nodup_cons.mp hd).1 (List.mem_append_left _ hlmem)
      have hxb : x ≠ b := by
        rintro rfl
        exact (List.nodup_cons.mp hd).1
          (List.mem_append_right _ (List.mem_cons_self _ _))
      have hxj : x ≠ j := by
        rintro rfl
        exact hj (List.mem_cons_self _ _)
      refine chainOk_cons.mpr ⟨n, ?_, hp, ?_, ?_⟩
      · rw [hfr x hxl hxb hxj]; exact hσ
      · rw [hn]; simp
      · exact ih hlast' hc' (List.nodup_cons.mp hd).2
          (fun hmem => hj (List.mem_cons_of_mem x hmem)) hσj hjp hjn hσl hσb hfr

/-- Removing the head of a chain of at least two nodes: the second
node's `prev` is reset to `none`. -/
theorem chainOk_behead {σ : Nat → Option Node} {i i2 : Nat} {rest : List Nat}
    (hc : chainOk σ none (i :: i2 :: rest) = true)
    (hd : (i :: i2 :: rest).Nodup) :
    chainOk (updF σ i2 (fun n => { n with prev := none })) none (i2 :: rest) = true := by
  obtain ⟨n, hσ, -, -, hc'⟩ := chainOk_cons.mp hc
  obtain ⟨m, hσ2, -, hmn, hc''⟩ := chainOk_cons.mp hc'
  refine chainOk_cons.mpr ⟨{ m with prev := none }, ?_, rfl, by simpa using hmn, ?_⟩
  · simp [updF, hσ2]
  · refine chainOk_frame (fun z hz => ?_) hc''
    have hz2 : z ≠ i2 := by
      rintro rfl
      exact (List.nodup_cons.mp (List.nodup_cons.mp hd).2).1 hz
    simp [updF, hz2]

/-- Removing the last node of a chain: the next-to-last id `l` gets
`next := none`. -/
theorem chainOk_unsnoc {σ : Nat → Option Node} {t : Nat} :
    ∀ {as : List Nat} {p : Option Nat} {l : Nat}, as.getLast? = some l →
      chainOk σ p (as ++ [t]) = true → (as ++ [t]).Nodup →
      chainOk (updF σ l (fun n => { n with next := none })) p as = true := by
  intro as
  induction as with
  | nil => intro p l hlast; exact absurd hlast (by simp)
  | cons x rest ih =>
    intro p l hlast hc hd
    obtain ⟨n, hσ, hp, hn, hc'⟩ := chainOk_cons.mp hc
    cases rest with
    | nil =>
      have hl : l = x := by simpa using hlast.symm
      subst hl
      refine chainOk_cons.mpr ⟨{ n with next := none }, ?_, by simpa using hp, by simp, by simp [chainOk]⟩
      simp [updF, hσ]
    | cons r rs =>
      have hlast' : (r :: rs).getLast? = some l := by
        rw [← List.getLast?_cons_cons (a := x)]; exact hlast
      have hlmem : l ∈ r :: rs := by
        obtain ⟨hne, heq⟩ := List.mem_getLast?_eq_getLast (x := l)
          (by rw [hlast']; exact rfl)
        exact heq ▸ List.getLast_mem hne
      have hxl : x ≠ l := by
        rintro rfl
        exact (List.nodup_cons.mp hd).1 (List.mem_append_left _ hlmem)
      refine chainOk_cons.mpr ⟨n, ?_, hp, ?_, ?_⟩
      · simp [updF, hxl, hσ]
      · rw [hn]; simp
      · exact ih hlast' hc' (List.nodup_cons.mp hd).2

/-- Unlinking an interior node `b` (with `y` the node after it and `l`
the node before it): `l.next` is redirected to `y` and `y.prev` to
`l`. -/
theorem chainOk_remove_mid {σ σ' : Nat → Option Node} {b y : Nat}
    {bs : List Nat} :
    ∀ {as : List Nat} {p : Option Nat} {l : Nat}, as.getLast? = some l →
      chainOk σ p (as ++ b :: y :: bs) = true → (as ++ b :: y :: bs).Nodup →
      σ' l = (σ l).map (fun n => { n with next := some y }) →
      σ' y = (σ y).map (fun n => { n with prev := some l }) →
      (∀ x, x ≠ l → x ≠ y → σ' x = σ x) →
      chainOk σ' p (as ++ y :: bs) = true := by
  intro as
  induction as with
  | nil => intro p l hlast; exact absurd hlast (by simp)
  | cons x rest ih =>
    intro p l hlast hc hd hσl hσy hfr
    obtain ⟨n, hσ, hp, hn, hc'⟩ := chainOk_cons.mp hc
    cases rest with
    | nil =>
      have hl : l = x := by simpa using hlast.symm
      subst hl
      obtain ⟨m, hσb, hmp, hmn, hc''⟩ := chainOk_cons.mp (by simpa using hc')
      obtain ⟨q, hσy', hqp, hqn, hc3⟩ := chainOk_cons.mp hc''
      have hd' : (l :: b :: y :: bs).Nodup := by simpa using hd
      refine chainOk_cons.mpr ⟨{ n with next := some y }, ?_, by simpa using hp, by simp, ?_⟩
      · rw [hσl, hσ]; rfl
      · refine chainOk_cons.mpr ⟨{ q with prev := some l }, ?_, rfl, by simpa using hqn, ?_⟩
        · rw [hσy, hσy']; rfl
        · refine chainOk_frame (fun z hz => ?_) hc3
          have hzy : z ≠ y := by
            rintro rfl
            exact (List.nodup_cons.mp
              (List.nodup_cons.mp (List.nodup_cons.mp hd').2).2).1 hz
          have hzl : z ≠ l := by
            rintro rfl
            exact (List.nodup_cons.mp hd').1
              (List.mem_cons_of_mem b (List.mem_cons_of_mem y hz))
          exact hfr z hzl hzy
    | cons r rs =>
      have hlast' : (r :: rs).getLast? = some l := by
        rw [← List.getLast?_cons_cons (a := x)]; exact hlast
      have hlmem : l ∈ r :: rs := by
        obtain ⟨hne, heq⟩ := List.mem_getLast?_eq_getLast (x := l)
          (by rw [hlast']; exact rfl)
        exact heq ▸ List.getLast_mem hne
      have hxl : x ≠ l := by
        rintro rfl
        exact (List.nodup_cons.mp hd).1 (List.mem_append_left _ hlmem)
      have hxy : x ≠ y := by
        rintro rfl
        exact (List.nodup_cons.mp hd).1
          (List.mem_append_right _ (List.mem_cons_of_mem b (List.mem_cons_self _ _)))
      refine chainOk_cons.mpr ⟨n, ?_, hp, ?_, ?_⟩
      · rw [hfr x hxl hxy]; exact hσ
      · rw [hn]; simp
      · exact ih hlast' hc' (List.nodup_cons.mp hd).2 hσl hσy hfr

/-- Two heaps that store the same values on `ids` give the same value
map. -/
theorem map_valAt_eq {σ σ' : Nat → Option Node} {ids : List Nat}
    (h : ∀ x ∈ ids, (σ' x).map Node.value = (σ x).map Node.value) :
    ids.map (valAt σ') = ids.map (valAt σ) := by
  refine List.map_congr_left (fun x hx => ?_)
  have hv := h x hx
  unfold valAt
  cases h1 : σ' x <;> cases h2 : σ x <;> rw [h1, h2] at hv <;> simp_all

/-- A link-only update (`f` preserves `value`) does not change stored
values. -/
theorem updF_map_value {σ : Nat → Option Node} {i : Nat} {f : Node → Node}
    (hf : ∀ n, (f n).value = n.value) (x : Nat) :
    ((updF σ i f) x).map Node.value = (σ x).map Node.value := by
  unfold updF
  by_cases hx : x = i
  · simp only [hx, if_pos rfl, Option.map_map]
    cases σ i <;> simp [hf]
  · simp [hx]

/-- `upd` leaves other ids unchanged. -/
theorem upd_ne {σ : Nat → Option Node} {j : Nat} {nj : Node} {x : Nat}
    (h : x ≠ j) : upd σ j nj x = σ x := by
  simp [upd, h]

/-- Recording a history entry changes no structural field. -/
theorem reprIds_record {s : DLL} {ids : List Nat} {t : OperationType}
    {v : Option String} {i : Option Nat} (h : ReprIds s ids) :
    ReprIds (s.record_operation t v i) ids := h

/-- `_record_operation` appends exactly one entry, whose stored state
is the current value sequence. -/
theorem record_operation_history (s : DLL) (t : OperationType)
    (v : Option String) (i : Option Nat) :
    (s.record_operation t v i).operation_history =
      s.operation_history ++ [⟨t, v, i, s.to_list⟩] := rfl

/-- `insert_at_head` appends exactly one history entry, whose stored
state is the post-operation value sequence. -/
theorem insert_at_head_history (s : DLL) (v : String) :
    (s.insert_at_head v).operation_history =
      s.operation_history ++
        [⟨.INSERT_HEAD, some v, some 0, (s.insert_at_head v).to_list⟩] := by
  cases hhd : s.head <;>
    simp [DLL.insert_at_head, hhd, DLL.record_operation, DLL.to_list]

/-- `insert_at_tail` appends exactly one history entry, whose stored
state is the post-operation value sequence. -/
theorem insert_at_tail_history (s : DLL) (v : String) :
    (s.insert_at_tail v).operation_history =
      s.operation_history ++
        [⟨.INSERT_TAIL, some v, some s.length, (s.insert_at_tail v).to_list⟩] := by
  cases hhd : s.head <;> cases htl : s.tail <;>
    simp [DLL.insert_at_tail, hhd, htl, DLL.record_operation, DLL.to_list]

/-- `clear` appends exactly one history entry, whose stored state is
the post-operation (empty) value sequence. -/
theorem clear_history (s : DLL) :
    s.clear.operation_history =
      s.operation_history ++ [⟨.CLEAR, none, none, s.clear.to_list⟩] := by
  simp [DLL.clear, DLL.record_operation, DLL.to_list]

/-- `insert_at_head`: the fresh id is prepended to the chain, the value
sequence gains `v` in front, and exactly one history entry is appended,
carrying the new sequence. -/
theorem insert_at_head_spec {s : DLL} {ids : List Nat} (h : ReprIds s ids)
    (v : String) :
    ReprIds (s.insert_at_head v) (s.nextId :: ids) ∧
    (s.insert_at_head v).to_list = v :: s.to_list := by
  obtain ⟨hc, hh, ht, hl, hd, hb⟩ := h
  have hfresh : s.nextId ∉ ids := fun hm => lt_irrefl _ (hb _ hm)
  have hvals : s.to_list = ids.map (valAt s.nodes) :=
    to_list_eq ⟨hc, hh, ht, hl, hd, hb⟩
  cases hhd : s.head with
  | none =>
    have hnil : ids = [] := by
      rw [hhd] at hh
      exact List.head?_eq_none_iff.mp hh.symm
    subst hnil
    have hrepr : ReprIds (s.insert_at_head v) [s.nextId] := by
      refine ⟨?_, ?_, ?_, ?_, ?_, ?_⟩ <;>
        simp [DLL.insert_at_head, hhd, DLL.record_operation, chainOk, upd, hl]
    refine ⟨hrepr, ?_⟩
    rw [to_list_eq hrepr, hvals]
    have : (s.insert_at_head v).nodes = upd s.nodes s.nextId ⟨v, none, none⟩ := by
      simp [DLL.insert_at_head, hhd, DLL.record_operation]
    rw [this]
    simp [valAt, upd]
  | some hid =>
    obtain ⟨rest, hids⟩ : ∃ rest, ids = hid :: rest := by
      cases ids with
      | nil => rw [hhd] at hh; exact absurd hh (by simp)
      | cons a t =>
        rw [hhd] at hh
        exact ⟨t, by simpa using hh.symm⟩
    subst hids
    have hjhid : s.nextId ≠ hid := fun hrfl =>
      hfresh (hrfl ▸ List.mem_cons_self hid rest)
    have hσ2 : (s.insert_at_head v).nodes =
        updF (upd s.nodes s.nextId ⟨v, some hid, none⟩) hid
          (fun n => { n with prev := some s.nextId }) := by
      simp [DLL.insert_at_head, hhd, DLL.record_operation]
    have hrepr : ReprIds (s.insert_at_head v) (s.nextId :: hid :: rest) := by
      refine ⟨?_, ?_, ?_, ?_, ?_, ?_⟩
      · rw [hσ2]
        exact chainOk_cons_new hc hfresh hd
      · simp [DLL.insert_at_head, hhd, DLL.record_operation]
      · have : (s.insert_at_head v).tail = s.tail := by
          simp [DLL.insert_at_head, hhd, DLL.record_operation]
        rw [this, ht, List.getLast?_cons_cons]
      · have : (s.insert_at_head v).length = s.length + 1 := by
          simp [DLL.insert_at_head, hhd, DLL.record_operation]
        rw [this, hl]; rfl
      · exact List.nodup_cons.mpr ⟨hfresh, hd⟩
      · intro x hx
        have : (s.insert_at_head v).nextId = s.nextId + 1 := by
          simp [DLL.insert_at_head, hhd, DLL.record_operation]
        rw [this]
        rcases List.mem_cons.mp hx with hx | hx
        · omega
        · have := hb x hx; omega
    refine ⟨hrepr, ?_⟩
    rw [to_list_eq hrepr, hvals, hσ2, List.map_cons]
    congr 1
    · simp [valAt, updF, upd, hjhid]
    · refine map_valAt_eq (fun x hx => ?_)
      have hxj : x ≠ s.nextId := fun hrfl => hfresh (hrfl ▸ hx)
      rw [updF_map_value (f := fun n => { n with prev := some s.nextId })
        (fun n => rfl) x, upd_ne hxj]

/-- `insert_at_tail`: the fresh id is appended to the chain and the
value sequence gains `v` at the end. -/
theorem insert_at_tail_spec {s : DLL} {ids : List Nat} (h : ReprIds s ids)
    (v : String) :
    ReprIds (s.insert_at_tail v) (ids ++ [s.nextId]) ∧
    (s.insert_at_tail v).to_list = s.to_list ++ [v] := by
  obtain ⟨hc, hh, ht, hl, hd, hb⟩ := h
  have hfresh : s.nextId ∉ ids := fun hm => lt_irrefl _ (hb _ hm)
  have hvals : s.to_list = ids.map (valAt s.nodes) :=
    to_list_eq ⟨hc, hh, ht, hl, hd, hb⟩
  cases ids with
  | nil =>
    have hh' : s.head = none := by simpa using hh
    have hrepr : ReprIds (s.insert_at_tail v) [s.nextId] := by
      refine ⟨?_, ?_, ?_, ?_, ?_, ?_⟩ <;>
        simp [DLL.insert_at_tail, hh', DLL.record_operation, chainOk, upd,
          hl, hvals]
    refine ⟨hrepr, ?_⟩
    rw [to_list_eq hrepr, hvals]
    have : (s.insert_at_tail v).nodes = upd s.nodes s.nextId ⟨v, none, none⟩ := by
      simp [DLL.insert_at_tail, hh', DLL.record_operation]
    rw [this]
    simp [valAt, upd]
  | cons a rest =>
    have hh' : s.head = some a := by simpa using hh
    have hne : a :: rest ≠ [] := List.cons_ne_nil a rest
    have ht' : s.tail = some ((a :: rest).getLast hne) := by
      rw [ht]
      exact List.getLast?_eq_getLast_of_ne_nil hne
    have hlast : (a :: rest).getLast? = some ((a :: rest).getLast hne) :=
      List.getLast?_eq_getLast_of_ne_nil hne
    have htmem : (a :: rest).getLast hne ∈ a :: rest := List.getLast_mem hne
    have hjt : s.nextId ≠ (a :: rest).getLast hne := fun hrfl =>
      hfresh (hrfl ▸ htmem)
    have hσ2 : (s.insert_at_tail v).nodes =
        updF (upd s.nodes s.nextId ⟨v, none, some ((a :: rest).getLast hne)⟩)
          ((a :: rest).getLast hne)
          (fun n => { n with next := some s.nextId }) := by
      simp [DLL.insert_at_tail, hh', ht', DLL.record_operation]
    have hrepr : ReprIds (s.insert_at_tail v) ((a :: rest) ++ [s.nextId]) := by
      refine ⟨?_, ?_, ?_, ?_, ?_, ?_⟩
      · rw [hσ2]
        exact chainOk_snoc hlast hc hd hfresh
      · have : (s.insert_at_tail v).head = s.head := by
          simp [DLL.insert_at_tail, hh', ht', DLL.record_operation]
        rw [this, hh']
        simp
      · have : (s.insert_at_tail v).tail = some s.nextId := by
          simp [DLL.insert_at_tail, hh', ht', DLL.record_operation]
        rw [this, List.getLast?_concat]
      · have : (s.insert_at_tail v).length = s.length + 1 := by
          simp [DLL.insert_at_tail, hh', ht', DLL.record_operation]
        rw [this, hl]
        simp
      · rw [List.nodup_append]
        refine ⟨hd, List.nodup_singleton _, fun x hx hx1 => ?_⟩
        have hxj : x = s.nextId := List.mem_singleton.mp hx1
        exact hfresh (hxj ▸ hx)
      · intro x hx
        have : (s.insert_at_tail v).nextId = s.nextId + 1 := by
          simp [DLL.insert_at_tail, hh', ht', DLL.record_operation]
        rw [this]
        rcases List.mem_append.mp hx with hx | hx
        · have := hb x hx; omega
        · have := List.mem_singleton.mp hx; omega
    refine ⟨hrepr, ?_⟩
    rw [to_list_eq hrepr, hvals, hσ2, List.map_append]
    congr 1
    · refine map_valAt_eq (fun x hx => ?_)
      have hxj : x ≠ s.nextId := fun hrfl => hfresh (hrfl ▸ hx)
      rw [updF_map_value (f := fun n => { n with next := some s.nextId })
        (fun n => rfl) x, upd_ne hxj]
    · simp [valAt, updF, upd, hjt]

/-- `head?` of a positive-length prefix agrees with the list's. -/
theorem take_head? {α : Type} (l : List α) (n : Nat) (hn : 0 < n) :
    (l.take n).head? = l.head? := by
  cases l with
  | nil => simp
  | cons a t =>
    match n, hn with
    | m + 1, _ => simp

/-- `head?` of an append with nonempty left part. -/
theorem append_head? {α : Type} {l : List α} (m : List α) (h : l ≠ []) :
    (l ++ m).head? = l.head? := by
  cases l with
  | nil => exact absurd rfl h
  | cons a t => simp

/-- `insert_at_position` on a valid index succeeds, preserves the
invariant, and inserts `v` at position `index` of the value
sequence. -/
theorem insert_at_position_spec {s : DLL} {ids : List Nat} (h : ReprIds s ids)
    {i : Int} (h0 : 0 ≤ i) (hle : i ≤ (s.length : Int)) (v : String) :
    ∃ s2, s.insert_at_position i v = .ok s2 ∧ Inv s2 ∧
      s2.to_list = s.to_list.take i.toNat ++ v :: s.to_list.drop i.toNat := by
  obtain ⟨k, rfl⟩ : ∃ k : Nat, i = (k : Int) := ⟨i.toNat, by omega⟩
  by_cases hi0 : k = 0
  · subst hi0
    obtain ⟨hrepr, hto⟩ := insert_at_head_spec h v
    refine ⟨_, ?_, ⟨_, hrepr⟩, ?_⟩
    · rw [DLL.insert_at_position, if_neg (by omega), if_pos (by norm_num)]
    · simpa using hto
  by_cases hiL : (k : Int) = (s.length : Int)
  · obtain ⟨hrepr, hto⟩ := insert_at_tail_spec h v
    refine ⟨_, ?_, ⟨_, hrepr⟩, ?_⟩
    · rw [DLL.insert_at_position, if_neg (by omega), if_neg (by omega),
        if_pos hiL]
    · rw [hto]
      have hlen2 : (k : Int).toNat = s.to_list.length := by
        rw [← length_to_list ⟨_, h⟩]; omega
      rw [hlen2, List.take_length, List.drop_length]
  -- interior: 0 < k < length
  obtain ⟨k', rfl⟩ : ∃ k', k = k' + 1 := ⟨k - 1, by omega⟩
  obtain ⟨hc, hh, ht, hl, hd, hb⟩ := h
  have hvals : s.to_list = ids.map (valAt s.nodes) :=
    to_list_eq ⟨hc, hh, ht, hl, hd, hb⟩
  have hfresh : s.nextId ∉ ids := fun hm => lt_irrefl _ (hb _ hm)
  have hkl : k' + 1 < ids.length := by omega
  have hk'l : k' < ids.length := by omega
  obtain ⟨cn, hσc, hcn, hcp⟩ := chainOk_get hc (k' + 1) hkl
  have hσcc : s.nodes ids[k' + 1] = some cn := by
    simpa using hσc
  have hcpp : cn.prev = some ids[k'] := by
    have : cn.prev = ids[k']? := hcp
    rwa [List.getElem?_eq_getElem hk'l] at this
  have hpc : ids[k'] ≠ ids[k' + 1] := fun he =>
    absurd ((List.Nodup.getElem_inj_iff hd).mp he) (by omega)
  have hpj : ids[k'] ≠ s.nextId := fun he => hfresh (he ▸ List.getElem_mem _)
  have hcj : ids[k' + 1] ≠ s.nextId := fun he => hfresh (he ▸ List.getElem_mem _)
  have hgn : s.get_node ((k' + 1 : Nat) : Int) = .ok (some ids[k' + 1]) := by
    rw [get_node_spec ⟨hc, hh, ht, hl, hd, hb⟩ (by omega) (by omega)]
    congr 1
    rw [show ((k' + 1 : Nat) : Int).toNat = k' + 1 by omega]
    exact List.getElem?_eq_getElem hkl
  have hsplit : ids = ids.take (k' + 1) ++ ids[k' + 1] :: ids.drop (k' + 2) := by
    conv_lhs => rw [← List.take_append_drop (k' + 1) ids]
    rw [List.drop_eq_getElem_cons hkl]
  have htake_last : (ids.take (k' + 1)).getLast? = some ids[k'] := by
    rw [List.getLast?_eq_getElem?, List.getElem?_take, List.length_take,
      Nat.min_eq_left (le_of_lt hkl), if_pos (by omega)]
    have : k' + 1 - 1 = k' := by omega
    rw [this]
    exact List.getElem?_eq_getElem hk'l
  have hdrop : ids.drop (k' + 1) = ids[k' + 1] :: ids.drop (k' + 2) :=
    List.drop_eq_getElem_cons hkl
  -- the spliced heap
  have hchain : chainOk
      (spliceHeap s.nodes s.nextId ids[k'] ids[k' + 1] v)
      none (ids.take (k' + 1) ++ s.nextId :: ids[k' + 1] :: ids.drop (k' + 2)) = true := by
    refine chainOk_insert_mid htake_last (hsplit ▸ hc) (hsplit ▸ hd)
      (hsplit ▸ hfresh)
      (show _ = some (⟨v, some ids[k' + 1], some ids[k']⟩ : Node) by
        simp [spliceHeap, updF, upd, Ne.symm hcj, Ne.symm hpj])
      rfl rfl ?_ ?_ ?_
    · simp [spliceHeap, updF, upd, hpc, hpj]
    · simp [spliceHeap, updF, upd, hcj, Ne.symm hpc]
    · intro x hxl hxb hxj
      simp [spliceHeap, updF, upd, hxl, hxb, hxj]
  have hTne : ids.take (k' + 1) ≠ [] := by
    intro hnil
    have h2 : (ids.take (k' + 1)).length = 0 := by rw [hnil]; rfl
    rw [List.length_take] at h2
    omega
  have hres : s.insert_at_position ((k' + 1 : Nat) : Int) v =
      .ok (DLL.record_operation
        { s with
          nodes := spliceHeap s.nodes s.nextId ids[k'] ids[k' + 1] v,
          length := s.length + 1, nextId := s.nextId + 1 }
        .INSERT_POS (some v) (some (((k' + 1 : Nat) : Int)).toNat)) := by
    rw [DLL.insert_at_position, if_neg (by omega), if_neg (by omega),
      if_neg hiL, hgn]
    simp only [hσcc, hcpp]
    rfl
  have hrepr : ReprIds
      (DLL.record_operation
        { s with
          nodes := spliceHeap s.nodes s.nextId ids[k'] ids[k' + 1] v,
          length := s.length + 1, nextId := s.nextId + 1 }
        .INSERT_POS (some v) (some (((k' + 1 : Nat) : Int)).toNat))
      (ids.take (k' + 1) ++ s.nextId :: ids.drop (k' + 1)) := by
    refine ⟨?_, ?_, ?_, ?_, ?_, ?_⟩
    · show chainOk _ none _ = true
      rw [hdrop]
      exact hchain
    · show s.head = _
      rw [hh, append_head? _ hTne, take_head? ids (k' + 1) (by omega)]
    · show s.tail = _
      rw [ht]
      conv_lhs => rw [hsplit]
      rw [List.getLast?_append_of_ne_nil _ (List.cons_ne_nil _ _),
        List.getLast?_append_of_ne_nil _ (List.cons_ne_nil _ _), hdrop,
        List.getLast?_cons_cons]
    · show s.length + 1 = _
      rw [List.length_append, List.length_take, List.length_cons,
        List.length_drop]
      omega
    · show List.Nodup _
      rw [List.nodup_middle, List.nodup_cons, List.take_append_drop]
      exact ⟨hfresh, hd⟩
    · intro x hx
      show x < s.nextId + 1
      rcases List.mem_append.mp hx with hx | hx
      · have := hb x ((List.take_sublist _ _).subset hx); omega
      · rcases List.mem_cons.mp hx with rfl | hx
        · omega
        · have := hb x ((List.drop_sublist _ _).subset hx); omega
  refine ⟨_, hres, ⟨_, hrepr⟩, ?_⟩
  rw [to_list_eq hrepr, hvals,
    show ((k' + 1 : Nat) : Int).toNat = k' + 1 by omega,
    List.map_append, List.map_cons, ← List.map_take, ← List.map_drop]
  congr 1
  · refine map_valAt_eq (fun x hx => ?_)
    have hxj : x ≠ s.nextId := fun hrfl =>
      hfresh (hrfl ▸ (List.take_sublist _ _).subset hx)
    show ((spliceHeap s.nodes s.nextId ids[k'] ids[k' + 1] v) x).map Node.value
      = (s.nodes x).map Node.value
    rw [spliceHeap,
      updF_map_value (f := fun n => { n with prev := some s.nextId })
        (fun n => rfl) x,
      updF_map_value (f := fun n => { n with next := some s.nextId })
        (fun n => rfl) x,
      upd_ne hxj]
  · congr 1
    · show valAt _ s.nextId = v
      simp [valAt, spliceHeap, DLL.record_operation, updF, upd,
        Ne.symm hcj, Ne.symm hpj]
    · refine map_valAt_eq (fun x hx => ?_)
      have hxj : x ≠ s.nextId := fun hrfl =>
        hfresh (hrfl ▸ (List.drop_sublist _ _).subset hx)
      show ((spliceHeap s.nodes s.nextId ids[k'] ids[k' + 1] v) x).map Node.value
        = (s.nodes x).map Node.value
      rw [spliceHeap,
        updF_map_value (f := fun n => { n with prev := some s.nextId })
          (fun n => rfl) x,
        updF_map_value (f := fun n => { n with next := some s.nextId })
          (fun n => rfl) x,
        upd_ne hxj]

/-- `delete_at_position` on a valid index succeeds, returns the value
at that index, preserves the invariant, and removes position `index`
from the value sequence. -/
theorem delete_at_position_spec {s : DLL} {ids : List Nat} (h : ReprIds s ids)
    {i : Int} (h0 : 0 ≤ i) (hlt : i < (s.length : Int)) :
    ∃ rv s2, s.delete_at_position i = .ok (rv, s2) ∧
      s.to_list[i.toNat]? = some rv ∧ Inv s2 ∧
      s2.to_list = s.to_list.take i.toNat ++ s.to_list.drop (i.toNat + 1) := by
  obtain ⟨k, rfl⟩ : ∃ k : Nat, i = (k : Int) := ⟨i.toNat, by omega⟩
  obtain ⟨hc, hh, ht, hl, hd, hb⟩ := h
  have hvals : s.to_list = ids.map (valAt s.nodes) :=
    to_list_eq ⟨hc, hh, ht, hl, hd, hb⟩
  have hkl : k < ids.length := by omega
  have htn : ((k : Int)).toNat = k := by omega
  rw [htn]
  have hval : s.to_list[k]? = some (valAt s.nodes ids[k]) := by
    rw [hvals, List.getElem?_eq_getElem (by simpa using hkl)]
    simp
  by_cases h1 : s.length = 1
  · -- sole node
    obtain ⟨a, hids⟩ : ∃ a, ids = [a] := by
      cases ids with
      | nil => exact absurd (hl ▸ h1) (by simp)
      | cons a t =>
        cases t with
        | nil => exact ⟨a, rfl⟩
        | cons b u => rw [hl] at h1; exact absurd h1 (by simp)
    subst hids
    have hh' : s.head = some a := by simpa using hh
    obtain ⟨n, hσa, -, -, -⟩ := chainOk_cons.mp hc
    have hk0 : k = 0 := by omega
    subst hk0
    have hres : s.delete_at_position ((0 : Nat) : Int) =
        .ok (n.value, DLL.record_operation
          { s with head := none, tail := none, length := s.length - 1 }
          .DELETE (some n.value) (some (((0 : Nat) : Int)).toNat)) := by
      rw [DLL.delete_at_position, if_neg (by omega), if_pos h1, hh']
      simp only [hσa]
    have hrepr : ReprIds
        (DLL.record_operation
          { s with head := none, tail := none, length := s.length - 1 }
          .DELETE (some n.value) (some (((0 : Nat) : Int)).toNat)) [] := by
      refine ⟨rfl, rfl, rfl, ?_, List.nodup_nil, by simp⟩
      show s.length - 1 = 0
      omega
    refine ⟨n.value, _, hres, ?_, ⟨_, hrepr⟩, ?_⟩
    · rw [hval]
      simp [valAt, hσa]
    · rw [to_list_eq hrepr, hvals]
      simp
  by_cases hk0 : k = 0
  · -- delete at the head of a list of length at least two
    subst hk0
    obtain ⟨a, b, rest, hids⟩ : ∃ a b rest, ids = a :: b :: rest := by
      cases ids with
      | nil => simp at hkl
      | cons a t =>
        cases t with
        | nil => rw [hl] at h1; simp at h1
        | cons b u => exact ⟨a, b, u, rfl⟩
    subst hids
    have hh' : s.head = some a := by simpa using hh
    obtain ⟨n, hσa, hpa, hna, hc'⟩ := chainOk_cons.mp hc
    have hnab : n.next = some b := by simpa using hna
    have hres : s.delete_at_position ((0 : Nat) : Int) =
        .ok (n.value, DLL.record_operation
          { s with nodes := updF s.nodes b (fun m => { m with prev := none }),
                   head := some b, length := s.length - 1 }
          .DELETE (some n.value) (some (((0 : Nat) : Int)).toNat)) := by
      rw [DLL.delete_at_position, if_neg (by omega), if_neg h1,
        if_pos (by norm_num), hh']
      simp only [hσa, hnab]
    have hrepr : ReprIds
        (DLL.record_operation
          { s with nodes := updF s.nodes b (fun m => { m with prev := none }),
                   head := some b, length := s.length - 1 }
          .DELETE (some n.value) (some (((0 : Nat) : Int)).toNat))
        (b :: rest) := by
      refine ⟨chainOk_behead hc hd, rfl, ?_, ?_, (List.nodup_cons.mp hd).2, ?_⟩
      · show s.tail = _
        rw [ht, List.getLast?_cons_cons]
      · show s.length - 1 = _
        rw [hl]
        simp
      · intro x hx
        exact hb x (List.mem_cons_of_mem a hx)
    refine ⟨n.value, _, hres, ?_, ⟨_, hrepr⟩, ?_⟩
    · rw [hval]
      simp [valAt, hσa]
    · have hmv : (b :: rest).map
          (valAt (updF s.nodes b (fun m => { m with prev := none })))
          = (b :: rest).map (valAt s.nodes) :=
        map_valAt_eq (fun x hx =>
          updF_map_value (f := fun m => { m with prev := none }) (fun m => rfl) x)
      rw [to_list_eq hrepr]
      show (b :: rest).map
        (valAt (updF s.nodes b (fun m => { m with prev := none }))) = _
      rw [hmv, hvals]
      simp
  by_cases hkL : (k : Int) = (s.length : Int) - 1
  · -- delete at the tail of a list of length at least two
    have hdropk : ids.drop k = [ids[k]] := by
      rw [List.drop_eq_getElem_cons hkl]
      rw [List.drop_eq_nil_of_le (by omega)]
    have hsplit : ids = ids.take k ++ [ids[k]] := by
      conv_lhs => rw [← List.take_append_drop k ids]
      rw [hdropk]
    have htake_last : (ids.take k).getLast? = some ids[k - 1] := by
      rw [List.getLast?_eq_getElem?, List.getElem?_take, List.length_take,
        Nat.min_eq_left (le_of_lt hkl), if_pos (by omega)]
      exact List.getElem?_eq_getElem (by omega)
    obtain ⟨tn, hσt, htp, htnx⟩ := chainOk_before_mid htake_last (hsplit ▸ hc)
    have ht' : s.tail = some ids[k] := by
      rw [ht]
      conv_lhs => rw [hsplit]
      exact List.getLast?_concat _
    have hres : s.delete_at_position ((k : Nat) : Int) =
        .ok (tn.value, DLL.record_operation
          { s with
            nodes := updF s.nodes ids[k - 1] (fun m => { m with next := none }),
            tail := some ids[k - 1], length := s.length - 1 }
          .DELETE (some tn.value) (some (((k : Nat) : Int)).toNat)) := by
      rw [DLL.delete_at_position, if_neg (by omega), if_neg h1,
        if_neg (by omega), if_pos hkL, ht']
      simp only [hσt, htp]
    have hrepr : ReprIds
        (DLL.record_operation
          { s with
            nodes := updF s.nodes ids[k - 1] (fun m => { m with next := none }),
            tail := some ids[k - 1], length := s.length - 1 }
          .DELETE (some tn.value) (some (((k : Nat) : Int)).toNat))
        (ids.take k) := by
      refine ⟨chainOk_unsnoc htake_last (hsplit ▸ hc) (hsplit ▸ hd), ?_, ?_, ?_,
        (List.take_sublist k ids).nodup hd, ?_⟩
      · show s.head = _
        rw [hh, take_head? ids k (by omega)]
      · show (some ids[k - 1] : Option Nat) = _
        rw [htake_last]
      · show s.length - 1 = _
        rw [List.length_take]
        omega
      · intro x hx
        exact hb x ((List.take_sublist k ids).subset hx)
    refine ⟨tn.value, _, hres, ?_, ⟨_, hrepr⟩, ?_⟩
    · rw [hval]
      simp [valAt, hσt]
    · rw [to_list_eq hrepr]
      show (ids.take k).map
        (valAt (updF s.nodes ids[k - 1] (fun m => { m with next := none }))) = _
      rw [map_valAt_eq (fun x hx =>
          updF_map_value (f := fun m => { m with next := none }) (fun m => rfl) x),
        hvals, List.map_take]
      rw [List.drop_eq_nil_of_le (by rw [List.length_map]; omega),
        List.append_nil]
  -- interior delete: 0 < k < length - 1
  obtain ⟨k0, rfl⟩ : ∃ k0, k = k0 + 1 := ⟨k - 1, by omega⟩
  have hk1l : k0 + 1 < ids.length := hkl
  have hk2l : k0 + 2 < ids.length := by omega
  have hk0l : k0 < ids.length := by omega
  obtain ⟨cn, hσc, hcnx, hcpv⟩ := chainOk_get hc (k0 + 1) hk1l
  have hσcc : s.nodes ids[k0 + 1] = some cn := by simpa using hσc
  have hcp' : cn.prev = some ids[k0] := by
    have h2 : cn.prev = ids[k0]? := hcpv
    rwa [List.getElem?_eq_getElem hk0l] at h2
  have hcn' : cn.next = some ids[k0 + 2] := by
    have h2 : cn.next = ids[k0 + 1 + 1]? := hcnx
    rwa [List.getElem?_eq_getElem hk2l] at h2
  have hgn : s.get_node ((k0 + 1 : Nat) : Int) = .ok (some ids[k0 + 1]) := by
    rw [get_node_spec ⟨hc, hh, ht, hl, hd, hb⟩ (by omega) (by omega)]
    congr 1
    rw [show ((k0 + 1 : Nat) : Int).toNat = k0 + 1 by omega]
    exact List.getElem?_eq_getElem hk1l
  have hsplit2 : ids =
      ids.take (k0 + 1) ++ ids[k0 + 1] :: ids[k0 + 2] :: ids.drop (k0 + 3) := by
    conv_lhs => rw [← List.take_append_drop (k0 + 1) ids]
    rw [List.drop_eq_getElem_cons hk1l, List.drop_eq_getElem_cons hk2l]
  have hdrop2 : ids.drop (k0 + 2) = ids[k0 + 2] :: ids.drop (k0 + 3) :=
    List.drop_eq_getElem_cons hk2l
  have htake_last : (ids.take (k0 + 1)).getLast? = some ids[k0] := by
    rw [List.getLast?_eq_getElem?, List.getElem?_take, List.length_take,
      Nat.min_eq_left (le_of_lt hk1l), if_pos (by omega)]
    have h3 : k0 + 1 - 1 = k0 := by omega
    rw [h3]
    exact List.getElem?_eq_getElem hk0l
  have hTne : ids.take (k0 + 1) ≠ [] := by
    intro hnil
    have h2 : (ids.take (k0 + 1)).length = 0 := by rw [hnil]; rfl
    rw [List.length_take] at h2
    omega
  have hyl : ids[k0 + 2] ≠ ids[k0] := fun he =>
    absurd ((List.Nodup.getElem_inj_iff hd).mp he) (by omega)
  have hres : s.delete_at_position ((k0 + 1 : Nat) : Int) =
      .ok (cn.value, DLL.record_operation
        { s with
          nodes := updF
            (updF s.nodes ids[k0] (fun m => { m with next := some ids[k0 + 2] }))
            ids[k0 + 2] (fun m => { m with prev := some ids[k0] }),
          length := s.length - 1 }
        .DELETE (some cn.value) (some (((k0 + 1 : Nat) : Int)).toNat)) := by
    rw [DLL.delete_at_position, if_neg (by omega), if_neg h1,
      if_neg (by omega), if_neg hkL, hgn]
    simp only [hσcc, hcp', hcn']
  have hchain : chainOk
      (updF (updF s.nodes ids[k0] (fun m => { m with next := some ids[k0 + 2] }))
        ids[k0 + 2] (fun m => { m with prev := some ids[k0] }))
      none (ids.take (k0 + 1) ++ ids[k0 + 2] :: ids.drop (k0 + 3)) = true := by
    refine chainOk_remove_mid htake_last (hsplit2 ▸ hc) (hsplit2 ▸ hd) ?_ ?_ ?_
    · simp [updF, Ne.symm hyl]
    · simp [updF, hyl]
    · intro x hxl hxy
      simp [updF, hxl, hxy]
  have hrepr : ReprIds
      (DLL.record_operation
        { s with
          nodes := updF
            (updF s.nodes ids[k0] (fun m => { m with next := some ids[k0 + 2] }))
            ids[k0 + 2] (fun m => { m with prev := some ids[k0] }),
          length := s.length - 1 }
        .DELETE (some cn.value) (some (((k0 + 1 : Nat) : Int)).toNat))
      (ids.take (k0 + 1) ++ ids.drop (k0 + 2)) := by
    have hsub : List.Sublist (ids.take (k0 + 1) ++ ids.drop (k0 + 2)) ids := by
      conv_rhs => rw [← List.take_append_drop (k0 + 1) ids]
      refine List.Sublist.append_left ?_ _
      rw [List.drop_eq_getElem_cons hk1l]
      exact List.sublist_cons_self _ _
    refine ⟨?_, ?_, ?_, ?_, hsub.nodup hd, ?_⟩
    · show chainOk _ none _ = true
      rw [hdrop2]
      exact hchain
    · show s.head = _
      rw [hh, append_head? _ hTne, take_head? ids (k0 + 1) (by omega)]
    · show s.tail = _
      rw [ht]
      conv_lhs => rw [hsplit2]
      rw [List.getLast?_append_of_ne_nil _ (List.cons_ne_nil _ _), hdrop2,
        List.getLast?_append_of_ne_nil _ (List.cons_ne_nil _ _),
        List.getLast?_cons_cons]
    · show s.length - 1 = _
      rw [List.length_append, List.length_take, List.length_drop]
      omega
    · intro x hx
      exact hb x (hsub.subset hx)
  refine ⟨cn.value, _, hres, ?_, ⟨_, hrepr⟩, ?_⟩
  · rw [hval]
    simp [valAt, hσcc]
  · rw [to_list_eq hrepr]
    have hmv : ∀ l : List Nat,
        l.map (valAt (updF
          (updF s.nodes ids[k0] (fun m => { m with next := some ids[k0 + 2] }))
          ids[k0 + 2] (fun m => { m with prev := some ids[k0] })))
        = l.map (valAt s.nodes) := fun l =>
      map_valAt_eq (fun x hx => by
        rw [updF_map_value (f := fun m => { m with prev := some ids[k0] })
            (fun m => rfl) x,
          updF_map_value (f := fun m => { m with next := some ids[k0 + 2] })
            (fun m => rfl) x])
    show ((ids.take (k0 + 1) ++ ids.drop (k0 + 2)).map (valAt (updF
        (updF s.nodes ids[k0] (fun m => { m with next := some ids[k0 + 2] }))
        ids[k0 + 2] (fun m => { m with prev := some ids[k0] })))) = _
    rw [List.map_append, hmv, hmv, hvals, List.map_take, List.map_drop]

/-- `clear` empties the chain and the value sequence. -/
theorem clear_spec (s : DLL) :
    ReprIds s.clear [] ∧ s.clear.to_list = [] := by
  refine ⟨⟨rfl, rfl, rfl, rfl, List.nodup_nil, by simp⟩, ?_⟩
  rw [to_list_eq (⟨rfl, rfl, rfl, rfl, List.nodup_nil, by simp⟩ :
    ReprIds s.clear [])]
  rfl

/-- Folding `insert_at_tail` over a value list preserves the invariant,
appends the values to the sequence, and records one history entry per
value. -/
theorem foldl_insert_tail_spec :
    ∀ (vs : List String) (s : DLL), Inv s →
      Inv (vs.foldl DLL.insert_at_tail s) ∧
      (vs.foldl DLL.insert_at_tail s).to_list = s.to_list ++ vs ∧
      (vs.foldl DLL.insert_at_tail s).operation_history.length =
        s.operation_history.length + vs.length := by
  intro vs
  induction vs with
  | nil => intro s hs; exact ⟨hs, by simp, by simp⟩
  | cons v rest ih =>
    intro s hs
    obtain ⟨ids, hids⟩ := hs
    obtain ⟨hrepr, hto⟩ := insert_at_tail_spec hids v
    obtain ⟨hInv2, hto2, hlen2⟩ := ih (s.insert_at_tail v) ⟨_, hrepr⟩
    refine ⟨hInv2, ?_, ?_⟩
    · rw [List.foldl_cons, hto2, hto]
      simp
    · rw [List.foldl_cons, hlen2, insert_at_tail_history]
      simp
      omega

/-- `_load_from_list` rebuilds the sequence to exactly the given values,
preserves the invariant, and (because each tail re-insert records)
appends one history entry per value. -/
theorem load_from_list_spec (s : DLL) (vs : List String) :
    Inv (s.load_from_list vs) ∧ (s.load_from_list vs).to_list = vs ∧
    (s.load_from_list vs).operation_history.length =
      s.operation_history.length + vs.length := by
  have hreset : ReprIds
      ({ s with head := none, tail := none, length := 0 } : DLL) [] :=
    ⟨rfl, rfl, rfl, rfl, List.nodup_nil, by simp⟩
  have hto0 : ({ s with head := none, tail := none, length := 0 } : DLL).to_list
      = [] := by
    rw [to_list_eq hreset]
    rfl
  have hr := foldl_insert_tail_spec vs _ ⟨_, hreset⟩
  rw [DLL.load_from_list]
  exact ⟨hr.1, by rw [hr.2.1, hto0]; simp, by simpa using hr.2.2⟩

/-- `undo_last_operation` preserves the structural invariant. -/
theorem undo_Inv {s : DLL} (h : Inv s) : Inv (s.undo_last_operation).2 := by
  obtain ⟨ids, hids⟩ := h
  by_cases hlen : s.operation_history.length ≤ 1
  · simp only [DLL.undo_last_operation, if_pos hlen]
    exact ⟨ids, hids⟩
  · cases hgl : (s.operation_history.dropLast).getLast? with
    | none =>
      simp only [DLL.undo_last_operation, if_neg hlen, hgl]
      exact ⟨ids, hids⟩
    | some e =>
      simp only [DLL.undo_last_operation, if_neg hlen, hgl]
      exact (load_from_list_spec _ _).1

/-- The forward walk only ever faults with a `None` dereference. -/
theorem walkNextE_err {σ : Nat → Option Node} :
    ∀ {k : Nat} {c : Option Nat} {e : Err},
      walkNextE σ k c = .error e → e = .noneDeref := by
  intro k
  induction k with
  | zero => intro c e h; exact absurd h (by simp [walkNextE])
  | succ k' ih =>
    intro c e h
    cases c with
    | none => simpa [walkNextE] using h.symm
    | some i =>
      rw [walkNextE] at h
      cases hσ : σ i with
      | none => rw [hσ] at h; simpa using h.symm
      | some n => rw [hσ] at h; exact ih h

/-- The backward walk only ever faults with a `None` dereference. -/
theorem walkPrevE_err {σ : Nat → Option Node} :
    ∀ {k : Nat} {c : Option Nat} {e : Err},
      walkPrevE σ k c = .error e → e = .noneDeref := by
  intro k
  induction k with
  | zero => intro c e h; exact absurd h (by simp [walkPrevE])
  | succ k' ih =>
    intro c e h
    cases c with
    | none => simpa [walkPrevE] using h.symm
    | some i =>
      rw [walkPrevE] at h
      cases hσ : σ i with
      | none => rw [hσ] at h; simpa using h.symm
      | some n => rw [hσ] at h; exact ih h

/-- On an in-range index, a `_get_node` fault can only be a `None`
dereference (the bounds check passes). -/
theorem get_node_err_interior {s : DLL} {i : Int} (h0 : 0 ≤ i)
    (hlt : i < (s.length : Int)) {e : Err} (h : s.get_node i = .error e) :
    e = .noneDeref := by
  rw [DLL.get_node, if_neg (by omega)] at h
  by_cases hhalf : i ≤ ((s.length / 2 : Nat) : Int)
  · rw [if_pos hhalf] at h
    exact walkNextE_err h
  · rw [if_neg hhalf] at h
    exact walkPrevE_err h

/-- `insert_at_position` raises `IndexError` (leaving the state
untouched) exactly on indices outside `[0, length]`. -/
theorem insert_at_position_index_err (s : DLL) (i : Int) (v : String) :
    s.insert_at_position i v = .error (.indexOutOfRange, s) ↔
      i < 0 ∨ (s.length : Int) < i := by
  constructor
  · intro h
    by_contra hcon
    push_neg at hcon
    obtain ⟨h0, hle⟩ := hcon
    rw [DLL.insert_at_position, if_neg (by omega)] at h
    by_cases hi0 : i = 0
    · rw [if_pos hi0] at h; exact absurd h (by simp)
    rw [if_neg hi0] at h
    by_cases hiL : i = (s.length : Int)
    · rw [if_pos hiL] at h; exact absurd h (by simp)
    rw [if_neg hiL] at h
    cases hg : s.get_node i with
    | error e =>
      rw [hg] at h
      have he : e = Err.noneDeref :=
        get_node_err_interior (by omega) (by omega) hg
      simp [he] at h
    | ok c =>
      rw [hg] at h
      cases c with
      | none => simp at h
      | some c' =>
        cases hσ : s.nodes c' with
        | none => simp [hσ] at h
        | some cn => simp [hσ] at h
  · intro hcon
    rw [DLL.insert_at_position, if_pos hcon]

/-- `delete_at_position` raises `IndexError` (leaving the state
untouched) exactly on indices outside `[0, length)`. -/
theorem delete_at_position_index_err (s : DLL) (i : Int) :
    s.delete_at_position i = .error (.indexOutOfRange, s) ↔
      i < 0 ∨ (s.length : Int) ≤ i := by
  constructor
  · intro h
    by_contra hcon
    push_neg at hcon
    obtain ⟨h0, hlt⟩ := hcon
    simp only [DLL.delete_at_position] at h
    rw [if_neg (by omega)] at h
    by_cases h1 : s.length = 1
    · rw [if_pos h1] at h
      cases hh : s.head with
      | none => rw [hh] at h; simp at h
      | some a =>
        rw [hh] at h
        cases hσ : s.nodes a with
        | none => simp [hσ] at h
        | some n => simp [hσ] at h
    rw [if_neg h1] at h
    by_cases hi0 : i = 0
    · rw [if_pos hi0] at h
      cases hh : s.head with
      | none => rw [hh] at h; simp at h
      | some a =>
        rw [hh] at h
        cases hσ : s.nodes a with
        | none => simp [hσ] at h
        | some n => cases hnx : n.next <;> simp [hσ, hnx] at h
    rw [if_neg hi0] at h
    by_cases hiL : i = (s.length : Int) - 1
    · rw [if_pos hiL] at h
      cases htt : s.tail with
      | none => rw [htt] at h; simp at h
      | some t =>
        rw [htt] at h
        cases hσ : s.nodes t with
        | none => simp [hσ] at h
        | some tn => cases hpv : tn.prev <;> simp [hσ, hpv] at h
    rw [if_neg hiL] at h
    cases hg : s.get_node i with
    | error e =>
      rw [hg] at h
      have he : e = Err.noneDeref :=
        get_node_err_interior (by omega) (by omega) hg
      simp [he] at h
    | ok c =>
      rw [hg] at h
      cases c with
      | none => simp at h
      | some c' =>
        cases hσ : s.nodes c' with
        | none => simp [hσ] at h
        | some cn =>
          cases hcp : cn.prev with
          | none => simp [hσ, hcp] at h
          | some p => cases hnx : cn.next <;> simp [hσ, hcp, hnx] at h
  · intro hcon
    rw [DLL.delete_at_position, if_pos hcon]

/-- Under the invariant an insert either succeeds or is rejected by the
index check with the state untouched; it never hits a `None`
dereference. -/
theorem insert_at_position_total {s : DLL} (h : Inv s) (i : Int) (v : String) :
    (∃ s2, s.insert_at_position i v = .ok s2) ∨
      s.insert_at_position i v = .error (.indexOutOfRange, s) := by
  by_cases hrange : i < 0 ∨ (s.length : Int) < i
  · exact Or.inr ((insert_at_position_index_err s i v).mpr hrange)
  · push_neg at hrange
    obtain ⟨ids, hids⟩ := h
    obtain ⟨s2, hs2, -, -⟩ := insert_at_position_spec hids hrange.1 hrange.2 v
    exact Or.inl ⟨s2, hs2⟩

/-- Under the invariant a delete either succeeds or is rejected by the
index check with the state untouched; it never hits a `None`
dereference. -/
theorem delete_at_position_total {s : DLL} (h : Inv s) (i : Int) :
    (∃ rv s2, s.delete_at_position i = .ok (rv, s2)) ∨
      s.delete_at_position i = .error (.indexOutOfRange, s) := by
  by_cases hrange : i < 0 ∨ (s.length : Int) ≤ i
  · exact Or.inr ((delete_at_position_index_err s i).mpr hrange)
  · push_neg at hrange
    obtain ⟨ids, hids⟩ := h
    obtain ⟨rv, s2, hs2, -, -, -⟩ :=
      delete_at_position_spec hids hrange.1 hrange.2
    exact Or.inl ⟨rv, s2, hs2⟩

/-- Every public call preserves the structural invariant. -/
theorem Inv_step {s : DLL} (h : Inv s) (op : Op) : Inv (step s op) := by
  cases op with
  | insHead v =>
    obtain ⟨ids, hids⟩ := h
    exact ⟨_, (insert_at_head_spec hids v).1⟩
  | insTail v =>
    obtain ⟨ids, hids⟩ := h
    exact ⟨_, (insert_at_tail_spec hids v).1⟩
  | insPos i v =>
    rcases insert_at_position_total h i v with ⟨s2, hs2⟩ | herr
    · have hInv2 : Inv s2 := by
        by_cases hrange : i < 0 ∨ (s.length : Int) < i
        · rw [(insert_at_position_index_err s i v).mpr hrange] at hs2
          exact absurd hs2 (by simp)
        · push_neg at hrange
          obtain ⟨ids, hids⟩ := h
          obtain ⟨s2', hs2', hInv', -⟩ :=
            insert_at_position_spec hids hrange.1 hrange.2 v
          rw [hs2'] at hs2
          exact (Except.ok.inj hs2) ▸ hInv'
      simp only [step, hs2]
      exact hInv2
    · simp only [step, herr]
      exact h
  | delPos i =>
    by_cases hrange : i < 0 ∨ (s.length : Int) ≤ i
    · simp only [step, (delete_at_position_index_err s i).mpr hrange]
      exact h
    · push_neg at hrange
      obtain ⟨ids, hids⟩ := h
      obtain ⟨rv, s2, hs2, -, hInv2, -⟩ :=
        delete_at_position_spec hids hrange.1 hrange.2
      simp only [step, hs2]
      exact hInv2
  | clearOp => exact ⟨[], (clear_spec s).1⟩
  | searchOp v => exact h
  | undoOp => exact undo_Inv h

/-- Running any sequence of public calls from a state satisfying the
invariant lands in a state satisfying it. -/
theorem Inv_runOps : ∀ (ops : List Op) {s : DLL}, Inv s →
    Inv (runOps ops s) := by
  intro ops
  induction ops with
  | nil => intro s hs; exact hs
  | cons op rest ih =>
    intro s hs
    exact ih (Inv_step hs op)

/-- Along a well-formed chain every adjacent pair has mutually inverse
links. -/
theorem adjOk_chain {σ : Nat → Option Node} :
    ∀ {ids : List Nat} {p : Option Nat}, chainOk σ p ids = true →
      adjOk σ ids = true := by
  intro ids
  induction ids with
  | nil => intro p _; rfl
  | cons i rest ih =>
    intro p hc
    obtain ⟨n, hσ, hp, hn, hc'⟩ := chainOk_cons.mp hc
    cases rest with
    | nil => rfl
    | cons j rs =>
      obtain ⟨m, hσj, hjp, hjn, hc''⟩ := chainOk_cons.mp hc'
      have hnj : n.next = some j := by simpa using hn
      rw [adjOk]
      simp [hσ, hσj, hnj, hjp, ih hc']

/-- Under the invariant the executable structural check passes. -/
theorem structOk_of_inv {s : DLL} (h : Inv s) : s.structOk = true := by
  obtain ⟨ids, hc, hh, ht, hl, hd, hb⟩ := h
  have hfuel : ids.length ≤ s.nextId := nodup_length_le hd hb
  have hreach : s.reachIds = ids := by
    rw [DLL.reachIds, hh]
    exact reachIdsAux_chain hc hfuel
  rw [DLL.structOk, hreach]
  simp only [Bool.and_eq_true, Bool.or_eq_true, beq_iff_eq]
  refine ⟨⟨⟨⟨hl, ?_⟩, ?_⟩, ?_⟩, adjOk_chain hc⟩
  · rw [hh, hl]
    cases ids <;> simp
  · rw [hh, ht]
    cases ids with
    | nil => simp
    | cons a t =>
      rw [List.getLast?_eq_getLast_of_ne_nil (List.cons_ne_nil a t)]
      simp
  · cases hids : ids with
    | nil =>
      left
      rw [hl, hids]
      rfl
    | cons a t =>
      right
      subst hids
      rw [hh, ht, hl]
      have hlt : (a :: t).length - 1 < (a :: t).length := by simp
      rw [walkNextO_chain hc ((a :: t).length - 1) hlt,
        List.getLast?_eq_getElem?, List.getElem?_eq_getElem hlt]
      simp
  
/-- A successful `insert_at_position` appends exactly one history
entry, whose stored state is the post-operation value sequence. -/
theorem insert_at_position_ok_history (s : DLL) (i : Int) (v : String)
    (s2 : DLL) (h : s.insert_at_position i v = .ok s2) :
    ∃ e : HistEntry, s2.operation_history = s.operation_history ++ [e] ∧
      e.state = s2.to_list := by
  rw [DLL.insert_at_position] at h
  by_cases hr : i < 0 ∨ (s.length : Int) < i
  · rw [if_pos hr] at h; exact absurd h (by simp)
  rw [if_neg hr] at h
  by_cases hi0 : i = 0
  · rw [if_pos hi0] at h
    obtain rfl : s2 = s.insert_at_head v := (Except.ok.inj h).symm
    exact ⟨_, insert_at_head_history s v, rfl⟩
  rw [if_neg hi0] at h
  by_cases hiL : i = (s.length : Int)
  · rw [if_pos hiL] at h
    obtain rfl : s2 = s.insert_at_tail v := (Except.ok.inj h).symm
    exact ⟨_, insert_at_tail_history s v, rfl⟩
  rw [if_neg hiL] at h
  cases hg : s.get_node i with
  | error e => rw [hg] at h; simp at h
  | ok c =>
    rw [hg] at h
    cases c with
    | none => simp at h
    | some c' =>
      cases hσ : s.nodes c' with
      | none => simp [hσ] at h
      | some cn =>
        simp only [hσ] at h
        obtain rfl := (Except.ok.inj h).symm
        exact ⟨_, rfl, rfl⟩

/-- A successful `delete_at_position` appends exactly one history
entry, whose stored state is the post-operation value sequence. -/
theorem delete_at_position_ok_history (s : DLL) (i : Int) (rv : String)
    (s2 : DLL) (h : s.delete_at_position i = .ok (rv, s2)) :
    ∃ e : HistEntry, s2.operation_history = s.operation_history ++ [e] ∧
      e.state = s2.to_list := by
  simp only [DLL.delete_at_position] at h
  by_cases hr : i < 0 ∨ (s.length : Int) ≤ i
  · rw [if_pos hr] at h; exact absurd h (by simp)
  rw [if_neg hr] at h
  by_cases h1 : s.length = 1
  · rw [if_pos h1] at h
    cases hh : s.head with
    | none => rw [hh] at h; simp at h
    | some a =>
      rw [hh] at h
      cases hσ : s.nodes a with
      | none => simp [hσ] at h
      | some n =>
        simp only [hσ] at h
        obtain ⟨-, rfl⟩ := Prod.mk.injEq .. ▸ (Except.ok.inj h)
        exact ⟨_, rfl, rfl⟩
  rw [if_neg h1] at h
  by_cases hi0 : i = 0
  · rw [if_pos hi0] at h
    cases hh : s.head with
    | none => rw [hh] at h; simp at h
    | some a =>
      rw [hh] at h
      cases hσ : s.nodes a with
      | none => simp [hσ] at h
      | some n =>
        cases hnx : n.next with
        | none =>
          simp only [hσ, hnx] at h
          obtain ⟨-, rfl⟩ := Prod.mk.injEq .. ▸ (Except.ok.inj h)
          exact ⟨_, rfl, rfl⟩
        | some h2 =>
          simp only [hσ, hnx] at h
          obtain ⟨-, rfl⟩ := Prod.mk.injEq .. ▸ (Except.ok.inj h)
          exact ⟨_, rfl, rfl⟩
  rw [if_neg hi0] at h
  by_cases hiL : i = (s.length : Int) - 1
  · rw [if_pos hiL] at h
    cases htt : s.tail with
    | none => rw [htt] at h; simp at h
    | some t =>
      rw [htt] at h
      cases hσ : s.nodes t with
      | none => simp [hσ] at h
      | some tn =>
        cases hpv : tn.prev with
        | none =>
          simp only [hσ, hpv] at h
          obtain ⟨-, rfl⟩ := Prod.mk.injEq .. ▸ (Except.ok.inj h)
          exact ⟨_, rfl, rfl⟩
        | some t2 =>
          simp only [hσ, hpv] at h
          obtain ⟨-, rfl⟩ := Prod.mk.injEq .. ▸ (Except.ok.inj h)
          exact ⟨_, rfl, rfl⟩
  rw [if_neg hiL] at h
  cases hg : s.get_node i with
  | error e => rw [hg] at h; simp at h
  | ok c =>
    rw [hg] at h
    cases c with
    | none => simp at h
    | some c' =>
      cases hσ : s.nodes c' with
      | none => simp [hσ] at h
      | some cn =>
        cases hcp : cn.prev with
        | none => simp [hσ, hcp] at h
        | some p =>
          cases hnx : cn.next with
          | none => simp [hσ, hcp, hnx] at h
          | some nx =>
            simp only [hσ, hcp, hnx] at h
            obtain ⟨-, rfl⟩ := Prod.mk.injEq .. ▸ (Except.ok.inj h)
            exact ⟨_, rfl, rfl⟩

/-- Positional facts about a list with a distinguished middle element:
taking up to it recovers the prefix, dropping past it recovers the
suffix, and it sits at the prefix-length index. -/
theorem middle_facts {α : Type} :
    ∀ (l1 : List α) (v : α) (l2 : List α),
      (l1 ++ v :: l2).take l1.length = l1 ∧
      (l1 ++ v :: l2).drop (l1.length + 1) = l2 ∧
      (l1 ++ v :: l2)[l1.length]? = some v := by
  intro l1
  induction l1 with
  | nil => intro v l2; exact ⟨rfl, rfl, by simp⟩
  | cons a t ih =>
    intro v l2
    obtain ⟨h1, h2, h3⟩ := ih v l2
    exact ⟨by simp [h1], by simp [h2], by simpa using h3⟩

/-- The element at the prefix-length index of `l1 ++ v :: l2` is `v`. -/
theorem middle_get {α : Type} (l1 : List α) (v : α) (l2 : List α) {n : Nat}
    (hn : n = l1.length) : (l1 ++ v :: l2)[n]? = some v := by
  subst hn
  exact (middle_facts l1 v l2).2.2

/-- Taking up to and dropping past the middle element of
`l1 ++ v :: l2` recovers `l1 ++ l2`. -/
theorem take_drop_restore {α : Type} (l1 : List α) (v : α) (l2 : List α)
    {n : Nat} (hn : n = l1.length) :
    (l1 ++ v :: l2).take n ++ (l1 ++ v :: l2).drop (n + 1) = l1 ++ l2 := by
  subst hn
  obtain ⟨h1, h2, -⟩ := middle_facts l1 v l2
  rw [h1, h2]

/-- Folding `insert_at_tail` appends one history entry per value (no
invariant needed). -/
theorem foldl_insert_tail_history :
    ∀ (vs : List String) (s : DLL),
      (vs.foldl DLL.insert_at_tail s).operation_history.length =
        s.operation_history.length + vs.length := by
  intro vs
  induction vs with
  | nil => intro s; simp
  | cons v rest ih =>
    intro s
    rw [List.foldl_cons, ih, insert_at_tail_history]
    simp
    omega

-- ======================= Claim theorems =======================

/-- C1: the spec's undo-composition trace fails on the code.  From the
empty list, insert-tail "A", insert-tail "B", insert-head "C" yields
`["C","A","B"]`, and the first two undos yield `["A","B"]` then
`["A"]` — but the third undo leaves `["A"]` instead of `[]`, and the
fourth undo still reports success instead of being a no-op: the
snapshot replay re-inserts via `insert_at_tail`, which records fresh
history entries, so repeated undo never walks back to the oldest
state. -/
theorem undo_trace_stuck_at_A :
    (let t3 :=
      ((DLL.empty.insert_at_tail "A").insert_at_tail "B").insert_at_head "C"
    let u1 := t3.undo_last_operation
    let u2 := u1.2.undo_last_operation
    let u3 := u2.2.undo_last_operation
    let u4 := u3.2.undo_last_operation
    t3.to_list = ["C", "A", "B"] ∧
    u1.1 = true ∧ u1.2.to_list = ["A", "B"] ∧
    u2.1 = true ∧ u2.2.to_list = ["A"] ∧
    u3.1 = true ∧ u3.2.to_list = ["A"] ∧
    u4.1 = true ∧ u4.2.to_list = ["A"]) := by decide

/-- C2: a successful undo does not shrink the log by one entry.  On the
`["C","A","B"]` trace the log holds 3 entries; one successful undo pops
one entry but the snapshot replay records one entry per re-inserted
value, leaving 4 entries instead of 2. -/
theorem undo_pop_regrows_history :
    (let t3 :=
      ((DLL.empty.insert_at_tail "A").insert_at_tail "B").insert_at_head "C"
    t3.operation_history.length = 3 ∧
    (t3.undo_last_operation).1 = true ∧
    (t3.undo_last_operation).2.operation_history.length = 4) := by decide

/-- C3 counterexample: loading `["x","y","z"]` into the empty list
through the app-level bulk load appends 4 history entries (one for the
clear, one per tail insert), not exactly one. -/
theorem bulk_load_not_single_entry :
    ¬ ((appLoadFromList DLL.empty ["x", "y", "z"]).operation_history.length =
        DLL.empty.operation_history.length + 1) ∧
    (appLoadFromList DLL.empty ["x", "y", "z"]).operation_history.length =
      DLL.empty.operation_history.length + 4 := by decide

/-- C3 (amended): bulk load is recorded fine-grained, not
coarse-grained: the app-level load of N values appends N + 1 history
entries (one for the clear and one per tail insert), and the internal
snapshot-replay loader `_load_from_list` appends N entries (one per
value). -/
theorem bulk_load_entry_count :
    ∀ (s : DLL) (vs : List String),
      (appLoadFromList s vs).operation_history.length =
        s.operation_history.length + 1 + vs.length ∧
      (s.load_from_list vs).operation_history.length =
        s.operation_history.length + vs.length := by
  intro s vs
  constructor
  · rw [appLoadFromList, foldl_insert_tail_history, clear_history]
    simp
  · rw [DLL.load_from_list, foldl_insert_tail_history]

/-- C4: every successful `insert_at_head`, `insert_at_tail`,
`insert_at_position`, `delete_at_position` and `clear` appends exactly
one history entry whose stored state is the full post-operation value
sequence; `search` is a pure function of the state (it returns only an
index), so a search step leaves the list and the history unchanged. -/
theorem history_recording_contract :
    ∀ s : DLL,
      (∀ v, ∃ e : HistEntry, (s.insert_at_head v).operation_history =
          s.operation_history ++ [e] ∧
          e.state = (s.insert_at_head v).to_list) ∧
      (∀ v, ∃ e : HistEntry, (s.insert_at_tail v).operation_history =
          s.operation_history ++ [e] ∧
          e.state = (s.insert_at_tail v).to_list) ∧
      (∀ (i : Int) (v : String) (s2 : DLL),
          s.insert_at_position i v = .ok s2 →
          ∃ e : HistEntry, s2.operation_history = s.operation_history ++ [e] ∧
            e.state = s2.to_list) ∧
      (∀ (i : Int) (rv : String) (s2 : DLL),
          s.delete_at_position i = .ok (rv, s2) →
          ∃ e : HistEntry, s2.operation_history = s.operation_history ++ [e] ∧
            e.state = s2.to_list) ∧
      (∃ e : HistEntry, s.clear.operation_history =
          s.operation_history ++ [e] ∧ e.state = s.clear.to_list) ∧
      (∀ v, step s (Op.searchOp v) = s) := by
  intro s
  exact ⟨fun v => ⟨_, insert_at_head_history s v, rfl⟩,
    fun v => ⟨_, insert_at_tail_history s v, rfl⟩,
    fun i v s2 h => insert_at_position_ok_history s i v s2 h,
    fun i rv s2 h => delete_at_position_ok_history s i rv s2 h,
    ⟨_, clear_history s, rfl⟩,
    fun v => rfl⟩

/-- C4 witness: the contract instantiated on the one-element list, with
the success hypotheses of the positional operations discharged on
concrete calls. -/
theorem history_recording_contract_witness :
    (∃ e : HistEntry, (sample1.insert_at_head "H").operation_history =
        sample1.operation_history ++ [e] ∧
        e.state = (sample1.insert_at_head "H").to_list) ∧
    (∃ e : HistEntry, (sample1.insert_at_tail "B").operation_history =
        sample1.operation_history ++ [e] ∧
        e.state = (sample1.insert_at_tail "B").to_list) ∧
    (∃ e : HistEntry, (sample1.insert_at_tail "B").operation_history =
        sample1.operation_history ++ [e] ∧
        e.state = (sample1.insert_at_tail "B").to_list) := by
  have hmain := history_recording_contract sample1
  refine ⟨hmain.1 "H", hmain.2.1 "B", ?_⟩
  refine hmain.2.2.1 1 "B" (sample1.insert_at_tail "B") ?_
  rw [DLL.insert_at_position, if_neg (by decide), if_neg (by decide),
    if_pos (by decide)]

/-- C5: after any finite sequence of public operations from the empty
list, the executable structural check holds: `length` equals the number
of nodes reachable from `head` via `next`; `length == 0` iff `head` is
none iff `tail` is none; `length - 1` forward steps from `head` reach
`tail`; and every adjacent pair of reachable nodes has mutually inverse
`next`/`prev` links. -/
theorem structural_invariants_hold :
    ∀ ops : List Op, (runOps ops DLL.empty).structOk = true :=
  fun ops => structOk_of_inv (Inv_runOps ops Inv_empty)

/-- C6: `insert_at_position` raises the index error exactly on
`index < 0 ∨ index > length` and `delete_at_position` exactly on
`index < 0 ∨ index >= length` (hence on every index when the list is
empty), and on every such rejected call the raised error carries the
state `s` itself — value sequence, head, tail, length and history all
unchanged. -/
theorem rejected_call_atomicity :
    ∀ (s : DLL) (i : Int) (v : String),
      (s.insert_at_position i v = .error (.indexOutOfRange, s) ↔
        i < 0 ∨ (s.length : Int) < i) ∧
      (s.delete_at_position i = .error (.indexOutOfRange, s) ↔
        i < 0 ∨ (s.length : Int) ≤ i) ∧
      (s.length = 0 → s.delete_at_position i = .error (.indexOutOfRange, s)) :=
  fun s i v =>
    ⟨insert_at_position_index_err s i v,
     delete_at_position_index_err s i,
     fun h0 => (delete_at_position_index_err s i).mpr (by omega)⟩

/-- C6 witness: on the empty list, deleting at index 5 is rejected with
the state unchanged. -/
theorem rejected_call_atomicity_witness :
    DLL.empty.delete_at_position 5 = .error (.indexOutOfRange, DLL.empty) :=
  (rejected_call_atomicity DLL.empty 5 "x").2.2 rfl

/-- C7: under the structural invariant, `_get_node` on any valid index
— whichever direction the `length // 2` comparison picks, including
the forward tie-break at exactly `length/2` — returns the same node as
the reference full forward traversal from `head`, which exists. -/
theorem get_node_refines_forward_traversal :
    ∀ s : DLL, Inv s → ∀ k : Nat, k < s.length →
      s.get_node (k : Int) = .ok (s.reference_node k) ∧
      (s.reference_node k).isSome = true := by
  intro s hInv k hk
  obtain ⟨ids, hids⟩ := hInv
  have hkn : k < ids.length := by have := hids.2.2.2.1; omega
  rw [reference_node_spec hids k hk]
  constructor
  · have hg := get_node_spec hids (show (0 : Int) ≤ (k : Int) by omega)
      (show ((k : Nat) : Int) < (s.length : Int) by omega)
    rwa [show ((k : Nat) : Int).toNat = k by omega] at hg
  · rw [List.getElem?_eq_getElem hkn]
    rfl

/-- C7 witness: on the four-element list and index 2 (the even-length
tie-break, `4 / 2 = 2`), `_get_node` matches the reference forward
traversal. -/
theorem get_node_refines_forward_traversal_witness :
    sample4.get_node ((2 : Nat) : Int) = .ok (sample4.reference_node 2) ∧
      (sample4.reference_node 2).isSome = true :=
  get_node_refines_forward_traversal sample4 ⟨[0, 1, 2, 3], by decide⟩ 2
    (by decide)

/-- C8: under the structural invariant, inserting `v` at any valid
index `i` and then deleting at `i` returns `v` and restores exactly the
prior value sequence. -/
theorem insert_delete_inverse :
    ∀ s : DLL, Inv s → ∀ (v : String) (i : Int), 0 ≤ i →
      i ≤ (s.length : Int) →
      ∃ s1 s2, s.insert_at_position i v = .ok s1 ∧
        s1.delete_at_position i = .ok (v, s2) ∧ s2.to_list = s.to_list := by
  intro s hInv v i h0 hle
  obtain ⟨ids, hids⟩ := hInv
  obtain ⟨s1, hok1, hInv1, hto1⟩ := insert_at_position_spec hids h0 hle v
  obtain ⟨ids1, hids1⟩ := hInv1
  have hslen : s.length = s.to_list.length := length_to_list ⟨_, hids⟩
  have hlen0 : i.toNat ≤ s.to_list.length := by omega
  have htklen : (s.to_list.take i.toNat).length = i.toNat := by
    rw [List.length_take]
    omega
  have hlen1 : s1.length = s.to_list.length + 1 := by
    rw [length_to_list ⟨_, hids1⟩, hto1, List.length_append, List.length_cons,
      htklen, List.length_drop]
    omega
  have hi1 : i < (s1.length : Int) := by omega
  obtain ⟨rv, s2, hok2, hrv, hInv2, hto2⟩ := delete_at_position_spec hids1 h0 hi1
  have hget := middle_get (s.to_list.take i.toNat) v (s.to_list.drop i.toNat)
    htklen.symm
  have hrveq : rv = v := by
    rw [hto1, hget] at hrv
    exact (Option.some.inj hrv).symm
  subst hrveq
  refine ⟨s1, s2, hok1, hok2, ?_⟩
  rw [hto2, hto1, take_drop_restore _ _ _ htklen.symm, List.take_append_drop]

/-- C8 witness: on the four-element list, inserting "X" at index 2 and
deleting at index 2 returns "X" and restores the sequence. -/
theorem insert_delete_inverse_witness :
    ∃ s1 s2, sample4.insert_at_position 2 "X" = .ok s1 ∧
      s1.delete_at_position 2 = .ok ("X", s2) ∧
      s2.to_list = sample4.to_list :=
  insert_delete_inverse sample4 ⟨[0, 1, 2, 3], by decide⟩ "X" 2 (by decide)
    (by decide)

/-- C9: whenever the operation history holds at most one entry, undo is
a pure no-op: it returns `false` (the benign "nothing to undo" signal,
not an exception) and the state — sequence, head, tail, length and
history — is returned unchanged. -/
theorem undo_noop_boundary :
    ∀ s : DLL, s.operation_history.length ≤ 1 →
      s.undo_last_operation = (false, s) := by
  intro s h
  rw [DLL.undo_last_operation, if_pos h]

/-- C9 witness: on the one-element list (one history entry), undo is a
no-op returning `false`. -/
theorem undo_noop_boundary_witness :
    sample1.undo_last_operation = (false, sample1) :=
  undo_noop_boundary sample1 (by decide)

/-- C10: under the structural invariant the traversal loops never
dereference a `None` link: `_get_node` on every valid index returns an
existing node, and the interior-node accesses of `insert_at_position`
and `delete_at_position` never raise the `None`-dereference fault —
any raised error is the index check. -/
theorem get_node_total_on_invariant :
    ∀ s : DLL, Inv s →
      (∀ i : Int, 0 ≤ i → i < (s.length : Int) →
        ∃ c, s.get_node i = .ok (some c)) ∧
      (∀ (i : Int) (v : String) (e : Err) (s' : DLL),
        s.insert_at_position i v = .error (e, s') → e = .indexOutOfRange) ∧
      (∀ (i : Int) (e : Err) (s' : DLL),
        s.delete_at_position i = .error (e, s') → e = .indexOutOfRange) := by
  intro s hInv
  refine ⟨?_, ?_, ?_⟩
  · intro i h0 hlt
    obtain ⟨ids, hids⟩ := hInv
    have hpf : i.toNat < ids.length := by have := hids.2.2.2.1; omega
    refine ⟨ids.get ⟨i.toNat, hpf⟩, ?_⟩
    rw [get_node_spec hids h0 hlt, List.getElem?_eq_getElem hpf]
    rfl
  · intro i v e s' h
    rcases insert_at_position_total hInv i v with ⟨s2, hs2⟩ | herr
    · rw [hs2] at h
      exact absurd h (by simp)
    · rw [herr] at h
      exact ((Prod.ext_iff.mp (Except.error.inj h)).1).symm
  · intro i e s' h
    rcases delete_at_position_total hInv i with ⟨rv, s2, hs2⟩ | herr
    · rw [hs2] at h
      exact absurd h (by simp)
    · rw [herr] at h
      exact ((Prod.ext_iff.mp (Except.error.inj h)).1).symm

/-- C10 witness: on the four-element list, `_get_node 1` returns a
node, and a concrete rejected insert and delete are rejected by the
index check, not a `None` dereference. -/
theorem get_node_total_on_invariant_witness :
    (∃ c, sample4.get_node 1 = .ok (some c)) ∧
      Err.indexOutOfRange = Err.indexOutOfRange ∧
      Err.indexOutOfRange = Err.indexOutOfRange := by
  have hmain := get_node_total_on_invariant sample4 ⟨[0, 1, 2, 3], by decide⟩
  refine ⟨hmain.1 1 (by decide) (by decide), ?_, ?_⟩
  · exact hmain.2.1 (-1) "x" .indexOutOfRange sample4
      (by rw [DLL.insert_at_position, if_pos (by decide)])
  · exact hmain.2.2 (-1) .indexOutOfRange sample4
      (by rw [DLL.delete_at_position, if_pos (by decide)])

end ListProgram
